import Mathlib

/-!
The module criage-common: the archive manager (`archive/manager.go`)

A shallow embedding of the archive manager of `criage-common` and the
properties of its specification that hold (or fail) on it.

Conventions of the embedding.

* A Go `string` is its byte sequence (`Str`, a list of naturals, each byte a
  number below 256).  `str "abc"` is the byte sequence of an ASCII literal.
* The functions of the Go standard library that the manager calls
  (`strings.HasPrefix`, `strings.HasSuffix`, `strings.ToLower`,
  `filepath.Clean`, `filepath.Join`, `filepath.Dir`, `filepath.Match`,
  `filepath.Walk`) are embedded for the Unix build (`Separator = '/'`), after
  the Go sources.  `Clean` is the loop over the bytes of the path; it is
  proved equal to a fold over the path elements (`Clean_eq_cleanByElems`), on
  which the proofs work.
* Extraction takes the operating system as a parameter: the file-system calls
  (`os.MkdirAll`, `os.OpenFile`, `io.Copy`) are the fields of `OS`, and what
  is proved of extraction holds for every behaviour of these calls.  `memOS`
  is one in-memory file system, on which the code is run on examples.
* Creation reads a source tree held in memory (`DirTree`) and yields the
  sequence of entries handed to the archive writer (`Container`); errors of
  reading the source or of writing the output file are left out.  What the
  output file holds afterwards is `Container.readTar` and
  `Container.readZip`: the compressors of `tar.lz4`, `tar.xz` and `tar.gz`
  are never closed, so what reads back from their files is a parameter.
-/

namespace Criage

/-! ## Strings -/

/-- A Go string: its bytes. -/
abbrev Str := List Nat

/-- The bytes of an ASCII literal. -/
def str (s : String) : Str := s.toList.map Char.toNat

/-- The value of `os.PathSeparator` on Unix, the byte `'/'`. -/
def Separator : Nat := 47

/-- Go `strings.HasPrefix(s, prefix)`. -/
def HasPrefix (s pre : Str) : Bool := pre.isPrefixOf s

/-- Go `strings.HasSuffix(s, suffix)`. -/
def HasSuffix (s suf : Str) : Bool := suf.isSuffixOf s

/-- Go `strings.Join(elems, "/")`. -/
def joinSep : List Str → Str
  | [] => []
  | [e] => e
  | e :: es => e ++ Separator :: joinSep es

/-! ## `filepath.Clean` and `filepath.Join` (Unix) -/

/-- The path elements of a string: the pieces between separators (the
result of cutting at every `'/'`; never the empty list). -/
def splitSep : Str → List Str
  | [] => [[]]
  | c :: cs =>
    if c = Separator then [] :: splitSep cs
    else
      match splitSep cs with
      | [] => [[c]]
      | h :: t => (c :: h) :: t

/-- The path element `.` -/
def dot : Str := [46]

/-- The path element `..` -/
def dotdot : Str := [46, 46]

/-- One round of the loop of `filepath.Clean`, seen on the path element `e`.
The elements written to the output buffer so far are `stk`, the last one
first.  An empty element and `.` are dropped; `..` removes the last element
written when there is one to backtrack over (`out.w > dotdot`), is dropped at
the root of a rooted path, and is appended otherwise (to a buffer that is
empty or a chain of `..`); any other element is appended. -/
def cleanElem (rooted : Bool) (stk : List Str) (e : Str) : List Str :=
  if e = [] then stk
  else if e = dot then stk
  else if e = dotdot then
    match stk with
    | top :: rest => if top = dotdot then dotdot :: stk else rest
    | [] => if rooted then [] else [dotdot]
  else e :: stk

/-- The string `filepath.Clean` returns for the elements `es` it kept:
`/` and the elements joined for a rooted path, the elements joined for a
relative one, `.` when a relative path has no element left. -/
def render (rooted : Bool) (es : List Str) : Str :=
  if rooted then Separator :: joinSep es
  else if es = [] then dot
  else joinSep es

/-- The fold of `cleanElem` over the path elements: a description of
`filepath.Clean` by elements, equal to `Clean` (`Clean_eq_cleanByElems`). -/
def cleanByElems (path : Str) : Str :=
  match path with
  | [] => dot
  | c :: _ =>
    let rooted : Bool := c = Separator
    render rooted ((splitSep path).foldl (cleanElem rooted) []).reverse

/-- The step of `filepath.Clean` that backtracks over the last element,
`out.w--; for out.w > dotdot && !os.IsPathSeparator(out.index(out.w)) { out.w-- }`,
on the output buffer held last byte first. -/
def backtrack (dotdot : Nat) : Str → Str
  | [] => []
  | b :: rest => if rest.length > dotdot ∧ b ≠ Separator then backtrack dotdot rest else rest

/-- The loop `for r < n` of `filepath.Clean`: the bytes of the path from
index `r` on, the output buffer `out` (last byte first) and the variable
`dotdot`.  The four cases are those of the source: an empty path element, the
element `.`, the element `..`, a real path element.  The first argument
bounds the rounds; each round reads at least one byte. -/
def cleanLoop (rooted : Bool) : Nat → Str → Str → Nat → Str
  | 0, _, out, _ => out
  | _ + 1, [], out, _ => out
  | fuel + 1, c :: rest, out, dotdot =>
    if c = Separator then cleanLoop rooted fuel rest out dotdot
    else if c = 46 ∧ (rest = [] ∨ rest.head? = some Separator) then
      cleanLoop rooted fuel rest out dotdot
    else if c = 46 ∧ rest.head? = some 46 ∧
        (rest.tail = [] ∨ rest.tail.head? = some Separator) then
      if out.length > dotdot then cleanLoop rooted fuel rest.tail (backtrack dotdot out) dotdot
      else if !rooted then
        let out1 := if out.length > 0 then Separator :: out else out
        cleanLoop rooted fuel rest.tail (46 :: 46 :: out1) (out1.length + 2)
      else cleanLoop rooted fuel rest.tail out dotdot
    else
      let out1 :=
        if (rooted ∧ out.length ≠ 1) ∨ (!rooted ∧ out.length ≠ 0) then Separator :: out else out
      cleanLoop rooted fuel ((c :: rest).dropWhile (fun b => b ≠ Separator))
        (((c :: rest).takeWhile (fun b => b ≠ Separator)).reverse ++ out1) dotdot

/-- Go `filepath.Clean(path)` on Unix, after its source: `.` for the empty
path; otherwise the loop over the bytes, started after the leading slash of
a rooted path, and `.` when the loop leaves the buffer empty. -/
def Clean (path : Str) : Str :=
  match path with
  | [] => dot
  | c :: rest =>
    let rooted : Bool := c = Separator
    let out :=
      if rooted then cleanLoop rooted (path.length + 1) rest [Separator] 1
      else cleanLoop rooted (path.length + 1) path [] 0
    if out = [] then dot else out.reverse

/-- Go `filepath.Join(elem...)` on Unix: the elements from the first
non-empty one on, joined with `/` and cleaned; the empty string when all
are empty. -/
def Join (elem : List Str) : Str :=
  match elem.dropWhile (fun e => e = []) with
  | [] => []
  | rest => Clean (joinSep rest)

/-! ## The path check of `extractTar` and `extractZip` -/

/-- The target of an archive entry: `filepath.Join(destDir, name)`
(`manager.go` lines 178 and 209). -/
def entryTarget (destDir name : Str) : Str := Join [destDir, name]

/-- The safety test of lines 181 and 212, as a boolean: `true` when the
entry is accepted, `false` when extraction returns `invalid path`. -/
def pathAccepted (destDir name : Str) : Bool :=
  HasPrefix (entryTarget destDir name) (Clean destDir ++ [Separator])

/-- The elements of a path that name something: its pieces between
separators other than the empty one and `.`. -/
def elems (p : Str) : List Str :=
  (splitSep p).filter (fun e => e ≠ [] ∧ e ≠ dot)

/-- A path is rooted when it begins with the separator. -/
def isRooted (p : Str) : Bool := p.head? = some Separator

/-- The path `target` is a proper descendant of `root`: both are rooted or
both relative, and the elements of `target` are those of `root` followed by
one or more elements, none of which is `..`. -/
def descends (root target : Str) : Bool :=
  (isRooted root == isRooted target) &&
  (elems root).isPrefixOf (elems target) &&
  decide ((elems root).length < (elems target).length) &&
  ((elems target).drop (elems root).length).all (fun e => e ≠ dotdot)

/-- The location a path names when the working directory is `cwd`, as the
list of names from the root of the file system (no symbolic links): a rooted
path starts at the root, a relative one at `cwd`; `..` goes to the parent and
stays at the root. -/
def resolve (cwd : List Str) (p : Str) : List Str :=
  (elems p).foldl (fun loc e => if e = dotdot then loc.dropLast else loc ++ [e])
    (if isRooted p then [] else cwd)

/-- The location of `target` is at or below the location of `root`, for
the working directory `cwd`. -/
def locatedUnder (cwd : List Str) (root target : Str) : Bool :=
  (resolve cwd root).isPrefixOf (resolve cwd target)


/-- An element that `Clean` keeps: non-empty, not `.`, free of separators. -/
def goodElem (e : Str) : Prop := e ≠ [] ∧ e ≠ dot ∧ Separator ∉ e

/-- The shape of the output buffer of `Clean` (last element first): ordinary
names on top of a chain of `..`, the chain being empty for a rooted path. -/
def stackOK (rooted : Bool) : List Str → Prop
  | [] => True
  | top :: rest =>
    goodElem top ∧
      ((top ≠ dotdot ∧ stackOK rooted rest) ∨
        (top = dotdot ∧ rooted = false ∧ ∀ e ∈ rest, e = dotdot))

/-- The output buffer of `Clean`, last byte first, that holds the elements
`stk` (last element first). -/
def bufOf (rooted : Bool) : List Str → Str
  | [] => if rooted then [Separator] else []
  | e :: rest =>
    e.reverse ++
      (match rest with
       | [] => if rooted then [Separator] else []
       | _ :: _ => Separator :: bufOf rooted rest)

/-- The value of the variable `dotdot` of `Clean` for the elements `stk`:
the length of the leading slash or of the leading chain of `..`. -/
def ddOf (rooted : Bool) (stk : List Str) : Nat :=
  if rooted then 1 else (bufOf false (stk.dropWhile (fun e => e ≠ dotdot))).length

/-- Go `filepath.Dir(path)` on Unix: the path up to and including its last
separator, cleaned. -/
def Dir (path : Str) : Str :=
  Clean (path.reverse.dropWhile (fun c => c ≠ Separator)).reverse

/-! ## Errors, archives and the operating system -/

/-- The errors the manager returns. -/
inductive Error where
  /-- The error `fmt.Errorf("invalid path: %s", name)`. -/
  | invalidPath (name : Str)
  /-- The error `fmt.Errorf("failed to create destination directory: %w", err)`. -/
  | destination (cause : Error)
  /-- The error `fmt.Errorf("no metadata found in archive")`. -/
  | noMetadata
  /-- The error `filepath.ErrBadPattern`. -/
  | badPattern
  /-- An error of the operating system or of a library, by number. -/
  | sys (code : Nat)
  deriving DecidableEq, Repr

/-- The type `types.ArchiveFormat`, a Go string. -/
abbrev ArchiveFormat := Str

/-- The constant `types.FormatTarZst`. -/
def FormatTarZst : ArchiveFormat := str "tar.zst"
/-- The constant `types.FormatTarLZ4`. -/
def FormatTarLZ4 : ArchiveFormat := str "tar.lz4"
/-- The constant `types.FormatTarXZ`. -/
def FormatTarXZ : ArchiveFormat := str "tar.xz"
/-- The constant `types.FormatTarGZ`. -/
def FormatTarGZ : ArchiveFormat := str "tar.gz"
/-- The constant `types.FormatZip`. -/
def FormatZip : ArchiveFormat := str "zip"

/-- The stream a tar archive is written to or read from: the bare file, or
the file wrapped by one of the compression libraries. -/
inductive Codec where
  | file
  | zstd
  | lz4
  | xz
  | gzip
  deriving DecidableEq, Repr

/-- The value of `tar.TypeDir`, the byte `'5'`. -/
def TypeDir : Nat := 53

/-- The value of `tar.TypeReg`, the byte `'0'`. -/
def TypeReg : Nat := 48

/-- The bit `fs.ModeDir` of an `os.FileMode`. -/
def ModeDir : Nat := 2147483648

/-- The conversion `os.FileMode(m)` of an `int64`: its low 32 bits. -/
def FileMode (m : Int) : Nat := (m % 4294967296).toNat

/-- The method `FileMode.IsDir`. -/
def IsDir (mode : Nat) : Bool := mode / ModeDir % 2 = 1

/-- One entry of a tar stream: the fields of `tar.Header` that the manager
reads or writes, and the bytes of the entry. -/
structure TarEntry where
  Name : Str
  Mode : Int
  Typeflag : Nat
  Data : Str
  deriving DecidableEq, Repr

/-- What `tar.Reader.Next` yields call after call: the entries, then
`io.EOF` (`trailer = none`) or an error. -/
structure TarStream where
  entries : List TarEntry
  trailer : Option Error
  deriving DecidableEq, Repr

/-- One `zip.File`: its name, the value of `FileInfo().Mode()`, and what
`Open` gives (the bytes of the entry, or an error). -/
structure ZipEntry where
  Name : Str
  Mode : Nat
  Open : Except Error Str

/-- The file at `archivePath` as the readers see it: the tar stream behind
each decompressor (or the error of `os.Open` or of creating the
decompressor), and the file list of `zip.OpenReader` (or its error). -/
structure Archive where
  tar : Codec → Except Error TarStream
  zip : Except Error (List ZipEntry)

/-- The file-system calls of extraction, on a state `σ`.  Each returns the
state it leaves and the error, if any. -/
structure OS (σ : Type) where
  /-- The call `os.MkdirAll(path, perm)`. -/
  MkdirAll : σ → Str → Nat → σ × Option Error
  /-- The call `os.OpenFile(path, os.O_WRONLY|os.O_CREATE|os.O_TRUNC, mode)`. -/
  OpenFile : σ → Str → Nat → σ × Option Error
  /-- The call `io.Copy(dest, src)` into the file just opened at `path`, and its
  deferred `Close`. -/
  Copy : σ → Str → Str → σ × Option Error

/-! ## Extraction -/

/-- The decompressor `extractTar` reads through (lines 144-165).  For
`tar.zst` the decoder is called on no input (`DecodeAll(nil, nil)`, which has
nothing to decode and nothing to report) and `reader` is then set to the
file itself; every tag outside the four named ones takes the branch
`default`, the file itself. -/
def extractReader (format : ArchiveFormat) : Codec :=
  if format = FormatTarZst then Codec.file
  else if format = FormatTarLZ4 then Codec.lz4
  else if format = FormatTarXZ then Codec.xz
  else if format = FormatTarGZ then Codec.gzip
  else Codec.file

/-- The method `Manager.extractFile` (lines 237-250). -/
def extractFile {σ : Type} (os : OS σ) (fs : σ) (src : Str) (destPath : Str) (mode : Nat) :
    σ × Option Error :=
  match os.MkdirAll fs (Dir destPath) 0o755 with
  | (fs1, some e) => (fs1, some e)
  | (fs1, none) =>
    match os.OpenFile fs1 destPath mode with
    | (fs2, some e) => (fs2, some e)
    | (fs2, none) => os.Copy fs2 destPath src

/-- The loop of `extractTar` (lines 169-195) over the entries still to
come. -/
def extractTarLoop {σ : Type} (os : OS σ) (destDir : Str) (trailer : Option Error) :
    σ → List TarEntry → σ × Option Error
  | fs, [] => (fs, trailer)
  | fs, header :: rest =>
    let target := Join [destDir, header.Name]
    if !HasPrefix target (Clean destDir ++ [Separator]) then
      (fs, some (Error.invalidPath header.Name))
    else if header.Typeflag = TypeDir then
      match os.MkdirAll fs target (FileMode header.Mode) with
      | (fs1, some e) => (fs1, some e)
      | (fs1, none) => extractTarLoop os destDir trailer fs1 rest
    else if header.Typeflag = TypeReg then
      match extractFile os fs header.Data target (FileMode header.Mode) with
      | (fs1, some e) => (fs1, some e)
      | (fs1, none) => extractTarLoop os destDir trailer fs1 rest
    else extractTarLoop os destDir trailer fs rest

/-- The method `Manager.extractTar` (lines 135-198). -/
def extractTar {σ : Type} (os : OS σ) (fs : σ) (archive : Archive) (destDir : Str)
    (format : ArchiveFormat) : σ × Option Error :=
  match archive.tar (extractReader format) with
  | .error e => (fs, some e)
  | .ok stream => extractTarLoop os destDir stream.trailer fs stream.entries

/-- The loop of `extractZip` (lines 208-231).  The error of `os.MkdirAll`
for a directory entry is dropped, as in the source. -/
def extractZipLoop {σ : Type} (os : OS σ) (destDir : Str) :
    σ → List ZipEntry → σ × Option Error
  | fs, [] => (fs, none)
  | fs, file :: rest =>
    let target := Join [destDir, file.Name]
    if !HasPrefix target (Clean destDir ++ [Separator]) then
      (fs, some (Error.invalidPath file.Name))
    else if IsDir file.Mode then
      extractZipLoop os destDir (os.MkdirAll fs target file.Mode).1 rest
    else
      match file.Open with
      | .error e => (fs, some e)
      | .ok fileReader =>
        match extractFile os fs fileReader target file.Mode with
        | (fs1, some e) => (fs1, some e)
        | (fs1, none) => extractZipLoop os destDir fs1 rest

/-- The method `Manager.extractZip` (lines 201-234). -/
def extractZip {σ : Type} (os : OS σ) (fs : σ) (archive : Archive) (destDir : Str) :
    σ × Option Error :=
  match archive.zip with
  | .error e => (fs, some e)
  | .ok files => extractZipLoop os destDir fs files

/-- The method `Manager.ExtractArchive` (lines 121-132). -/
def ExtractArchive {σ : Type} (os : OS σ) (fs : σ) (archive : Archive) (destDir : Str)
    (format : ArchiveFormat) : σ × Option Error :=
  match os.MkdirAll fs destDir 0o755 with
  | (fs1, some e) => (fs1, some (Error.destination e))
  | (fs1, none) =>
    if format = FormatZip then extractZip os fs1 archive destDir
    else extractTar os fs1 archive destDir format

/-! ## An in-memory file system -/

/-- A node of the in-memory file system. -/
inductive Node where
  | dir (perm : Nat)
  | file (perm : Nat) (data : Str)
  deriving DecidableEq, Repr

/-- The in-memory file system: the nodes created so far, by cleaned path.
The process is the owner of every node and is not the superuser, so the
owner bits of the permissions decide what it may do.  Symbolic links and the
umask are left out; `/`, `.` and the chains of `..` are directories that
always exist and that the process may search and write. -/
abbrev MemFS := List (Str × Node)

/-- The node at a cleaned path. -/
def MemFS.get (fs : MemFS) (p : Str) : Option Node :=
  (fs.find? (fun kv => kv.1 = p)).map (fun kv => kv.2)

/-- The file system with the node at `p` replaced. -/
def MemFS.set (fs : MemFS) (p : Str) (n : Node) : MemFS :=
  fs.filter (fun kv => kv.1 ≠ p) ++ [(p, n)]

/-- A directory that always exists: `/`, `.`, and the chains of `..`. -/
def alwaysDir (p : Str) : Bool := (elems p).all (fun e => e = dotdot)

/-- A cleaned path and its ancestors, the shortest first. -/
def ancestors (p : Str) : List Str :=
  (List.range (elems p).length).map (fun i => render (isRooted p) ((elems p).take (i + 1)))

/-- The owner may search a directory of these permission bits (bit `0100`). -/
def ownerSearch (perm : Nat) : Bool := perm / 64 % 2 = 1

/-- The owner may write a node of these permission bits (bit `0200`). -/
def ownerWrite (perm : Nat) : Bool := perm / 128 % 2 = 1

/-- Create the missing directories among `ps`, the shortest path first.
`parent` is the permission bits of the directory that holds the first path:
it must be searchable to go on, and writable to create a directory in it
(`EACCES`, 13, otherwise); a file on the way is `ENOTDIR`, 20. -/
def mkdirChain (perm : Nat) : MemFS → Nat → List Str → MemFS × Option Error
  | fs, _, [] => (fs, none)
  | fs, parent, p :: rest =>
    if !ownerSearch parent then (fs, some (Error.sys 13))
    else
      match fs.get p with
      | some (Node.dir q) => mkdirChain perm fs q rest
      | some (Node.file _ _) => (fs, some (Error.sys 20))
      | none =>
        if alwaysDir p then mkdirChain perm fs 0o777 rest
        else if !ownerWrite parent then (fs, some (Error.sys 13))
        else mkdirChain perm (fs.set p (Node.dir (perm % 512))) (perm % 512) rest

/-- The walk down the directories `ps`, the shortest path first: the
permission bits of the last one, or the error of the walk (`EACCES`, 13, for
a directory that may not be searched, `ENOTDIR`, 20, for a file on the way,
`ENOENT`, 2, for a missing directory). -/
def lookupDir : MemFS → Nat → List Str → Except Error Nat
  | _, parent, [] => .ok parent
  | fs, parent, p :: rest =>
    if !ownerSearch parent then .error (Error.sys 13)
    else
      match fs.get p with
      | some (Node.dir q) => lookupDir fs q rest
      | some (Node.file _ _) => .error (Error.sys 20)
      | none => if alwaysDir p then lookupDir fs 0o777 rest else .error (Error.sys 2)

/-- The in-memory operating system, for running the manager on examples.
The empty path names nothing (`ENOENT`, 2); opening a directory for
writing is `EISDIR`, 21. -/
def memOS : OS MemFS where
  MkdirAll := fun fs path perm =>
    if path = [] then (fs, some (Error.sys 2))
    else mkdirChain perm fs 0o777 (ancestors (Clean path))
  OpenFile := fun fs path mode =>
    if path = [] then (fs, some (Error.sys 2))
    else
      match lookupDir fs 0o777 (ancestors (Dir (Clean path))) with
      | .error e => (fs, some e)
      | .ok parent =>
        if !ownerSearch parent then (fs, some (Error.sys 13))
        else
          match fs.get (Clean path) with
          | some (Node.dir _) => (fs, some (Error.sys 21))
          | some (Node.file perm _) =>
            if ownerWrite perm then (fs.set (Clean path) (Node.file perm []), none)
            else (fs, some (Error.sys 13))
          | none =>
            if alwaysDir (Clean path) then (fs, some (Error.sys 21))
            else if ownerWrite parent then
              (fs.set (Clean path) (Node.file (mode % 512) []), none)
            else (fs, some (Error.sys 13))
  Copy := fun fs path data =>
    match fs.get (Clean path) with
    | some (Node.file perm _) => (fs.set (Clean path) (Node.file perm data), none)
    | _ => (fs, some (Error.sys 9))

/-- An archive that holds the given tar stream behind every reader. -/
def tarArchive (entries : List TarEntry) : Archive where
  tar := fun _ => .ok { entries := entries, trailer := none }
  zip := .error (Error.sys 0)

/-- An archive that `zip.OpenReader` opens, with the given files. -/
def zipArchive (files : List ZipEntry) : Archive where
  tar := fun _ => .error (Error.sys 0)
  zip := .ok files

/-! ## `filepath.Match` (Unix) -/

/-- The rune `utf8.RuneError`. -/
def RuneError : Nat := 65533

/-- The continuation bytes of `utf8.DecodeRuneInString`: for a leading
byte `s0` of an encoding of `sz` bytes whose second byte must lie in
`lo..hi`, the rune and its width, or `(RuneError, 1)` when a byte is missing
or out of range. -/
def decodeCont (s0 sz lo hi : Nat) (t : Str) : Nat × Nat :=
  match t with
  | [] => (RuneError, 1)
  | s1 :: t1 =>
    if s1 < lo ∨ hi < s1 then (RuneError, 1)
    else if sz ≤ 2 then (s0 % 32 * 64 + s1 % 64, 2)
    else
      match t1 with
      | [] => (RuneError, 1)
      | s2 :: t2 =>
        if s2 < 128 ∨ 191 < s2 then (RuneError, 1)
        else if sz ≤ 3 then (s0 % 16 * 4096 + s1 % 64 * 64 + s2 % 64, 3)
        else
          match t2 with
          | [] => (RuneError, 1)
          | s3 :: _ =>
            if s3 < 128 ∨ 191 < s3 then (RuneError, 1)
            else (s0 % 8 * 262144 + s1 % 64 * 4096 + s2 % 64 * 64 + s3 % 64, 4)

/-- The width of the encoding that the leading byte `s0` announces (the
table `first` of the package `utf8`), for `0xC2 ≤ s0 ≤ 0xF4`. -/
def runeWidth (s0 : Nat) : Nat := if s0 < 224 then 2 else if s0 < 240 then 3 else 4

/-- The least second byte accepted after the leading byte `s0` (the table
`acceptRanges`). -/
def acceptLo (s0 : Nat) : Nat := if s0 = 224 then 160 else if s0 = 240 then 144 else 128

/-- The greatest second byte accepted after the leading byte `s0`. -/
def acceptHi (s0 : Nat) : Nat := if s0 = 237 then 159 else if s0 = 244 then 143 else 191

/-- Go `utf8.DecodeRuneInString(s)`: the first rune of `s` and its width in
bytes; `(RuneError, 1)` for an encoding that is not valid, `(RuneError, 0)`
for the empty string. -/
def DecodeRuneInString (s : Str) : Nat × Nat :=
  match s with
  | [] => (RuneError, 0)
  | s0 :: t =>
    if s0 < 128 then (s0, 1)
    else if s0 < 194 ∨ 244 < s0 then (RuneError, 1)
    else if s.length < runeWidth s0 then (RuneError, 1)
    else decodeCont s0 (runeWidth s0) (acceptLo s0) (acceptHi s0) t

/-- The scan of `scanChunk` after the leading stars: the index at which the
chunk ends, the first `*` outside a bracket expression (an escaped byte is
skipped). -/
def scanLen : Bool → Str → Nat
  | _, [] => 0
  | inrange, c :: cs =>
    if c = 92 then
      match cs with
      | [] => 1
      | _ :: cs2 => 2 + scanLen inrange cs2
    else if c = 91 then 1 + scanLen true cs
    else if c = 93 then 1 + scanLen false cs
    else if c = 42 then (if inrange then 1 + scanLen inrange cs else 0)
    else 1 + scanLen inrange cs

/-- Go `scanChunk(pattern)`: whether the pattern begins with stars, the
chunk after them, and the rest of the pattern. -/
def scanChunk (pattern : Str) : Bool × Str × Str :=
  let star : Bool := pattern.head? = some 42
  let p := pattern.dropWhile (fun c => c = 42)
  let i := scanLen false p
  (star, p.take i, p.drop i)

/-- Go `getEsc(chunk)`: a possibly escaped character of a character class
and the chunk after it, or `ErrBadPattern`. -/
def getEsc (chunk : Str) : Except Error (Nat × Str) :=
  match chunk with
  | [] => .error Error.badPattern
  | c :: rest =>
    if c = 45 ∨ c = 93 then .error Error.badPattern
    else
      let chunk1 := if c = 92 then rest else chunk
      if chunk1 = [] then .error Error.badPattern
      else
        let rn := DecodeRuneInString chunk1
        let nchunk := chunk1.drop rn.2
        if rn.1 = RuneError ∧ rn.2 = 1 then .error Error.badPattern
        else if nchunk = [] then .error Error.badPattern
        else .ok (rn.1, nchunk)

/-- The loop of `matchChunk` that reads the ranges of a character class up
to its closing bracket: the chunk after the class and whether the rune `r`
is in one of the ranges.  The first argument bounds the rounds; each round
takes at least one byte of the chunk. -/
def classLoop (r : Nat) : Nat → Str → Bool → Nat → Except Error (Str × Bool)
  | 0, _, _, _ => .error Error.badPattern
  | fuel + 1, chunk, mtch, nrange =>
    if chunk.head? = some 93 ∧ nrange > 0 then .ok (chunk.tail, mtch)
    else
      match getEsc chunk with
      | .error e => .error e
      | .ok (lo, chunk1) =>
        match (if chunk1.head? = some 45 then getEsc chunk1.tail else .ok (lo, chunk1)) with
        | .error e => .error e
        | .ok (hi, chunk2) =>
          classLoop r fuel chunk2 (mtch || decide (lo ≤ r ∧ r ≤ hi)) (nrange + 1)

/-- The loop of `matchChunk`, with its flag `failed`.  The first argument
bounds the rounds; each round takes at least one byte of the chunk. -/
def matchChunkLoop : Nat → Bool → Str → Str → Str × Bool × Option Error
  | 0, _, _, _ => ([], false, some Error.badPattern)
  | fuel + 1, failed0, chunk, s =>
    match chunk with
    | [] => if failed0 then ([], false, none) else (s, true, none)
    | c :: chunk1 =>
      let failed : Bool := failed0 || s.isEmpty
      if c = 91 then
        let r := if failed then 0 else (DecodeRuneInString s).1
        let s1 := if failed then s else s.drop (DecodeRuneInString s).2
        let negated : Bool := chunk1.head? = some 94
        let chunk2 := if negated then chunk1.tail else chunk1
        match classLoop r (chunk2.length + 1) chunk2 false 0 with
        | .error e => ([], false, some e)
        | .ok (chunk3, mtch) => matchChunkLoop fuel (failed || (mtch == negated)) chunk3 s1
      else if c = 63 then
        if failed then matchChunkLoop fuel failed chunk1 s
        else
          matchChunkLoop fuel (decide (s.head? = some Separator)) chunk1
            (s.drop (DecodeRuneInString s).2)
      else
        let lit : Option (Nat × Str) :=
          if c = 92 then
            match chunk1 with
            | [] => none
            | c2 :: chunk2 => some (c2, chunk2)
          else some (c, chunk1)
        match lit with
        | none => ([], false, some Error.badPattern)
        | some (b, chunk2) =>
          if failed then matchChunkLoop fuel failed chunk2 s
          else matchChunkLoop fuel (decide (s.head? ≠ some b)) chunk2 s.tail

/-- Go `matchChunk(chunk, s)`: the rest of `s` after the chunk, whether the
chunk matches the beginning of `s`, and the error of a malformed chunk. -/
def matchChunk (chunk s : Str) : Str × Bool × Option Error :=
  matchChunkLoop (chunk.length + 1) false chunk s

/-- What the loop of `Match` under a star finds. -/
inductive StarResult where
  | found (t : Str)
  | bad (e : Error)
  | noMatch

/-- The loop of `Match` that, after a star, tries the chunk at each later
position of `name` up to the first separator.  `last` says that the chunk is
the last one of the pattern, which must then use up the name. -/
def starLoop (chunk : Str) (last : Bool) : Str → StarResult
  | [] => StarResult.noMatch
  | c :: rest =>
    if c = Separator then StarResult.noMatch
    else
      match matchChunk chunk rest with
      | (t, true, _) =>
        if last ∧ t ≠ [] then starLoop chunk last rest else StarResult.found t
      | (_, false, some e) => StarResult.bad e
      | (_, false, none) => starLoop chunk last rest

/-- The loop `Pattern` of `Match`.  The first argument bounds the rounds;
each round takes at least one byte of the pattern. -/
def matchLoop : Nat → Str → Str → Bool × Option Error
  | 0, _, _ => (false, some Error.badPattern)
  | fuel + 1, pattern, name =>
    if pattern = [] then (decide (name = []), none)
    else
      match scanChunk pattern with
      | (star, chunk, rest) =>
        if star ∧ chunk = [] then (decide (Separator ∉ name), none)
        else
          match matchChunk chunk name with
          | (t, ok, err) =>
            if ok ∧ (t = [] ∨ rest ≠ []) then matchLoop fuel rest t
            else if err.isSome then (false, err)
            else if star then
              match starLoop chunk (decide (rest = [])) name with
              | StarResult.found t2 => matchLoop fuel rest t2
              | StarResult.bad e => (false, some e)
              | StarResult.noMatch => (false, none)
            else (false, none)

/-- Go `filepath.Match(pattern, name)`: whether `name` matches the shell
pattern, and `ErrBadPattern` for a malformed pattern. -/
def Match (pattern name : Str) : Bool × Option Error :=
  matchLoop (pattern.length + 1) pattern name

/-! ## The inclusion filter -/

/-- The value `matched` of `matched, _ := filepath.Match(pattern, path)`:
the error is dropped. -/
def globMatches (pattern path : Str) : Bool := (Match pattern path).1

/-- The loop over `includeFiles` of `shouldExclude` (lines 517-522): `false`
at the first pattern that matches, `true` after the last one. -/
def includeLoop (path : Str) : List Str → Bool
  | [] => true
  | pattern :: rest => if globMatches pattern path then false else includeLoop path rest

/-- The method `Manager.shouldExclude` (lines 507-526): the loop over
`excludeFiles`, which returns `true` at the first pattern that matches, then
the test of `includeFiles`. -/
def shouldExclude (path : Str) (includeFiles : List Str) : List Str → Bool
  | pattern :: rest =>
    if globMatches pattern path then true else shouldExclude path includeFiles rest
  | [] => if includeFiles.length > 0 then includeLoop path includeFiles else false

/-! ## Format detection -/

/-- The lower-case form of an ASCII byte. -/
def lowerByte (c : Nat) : Nat := if 65 ≤ c ∧ c ≤ 90 then c + 32 else c

/-- Go `strings.ToLower(s)`.  A string of ASCII bytes has its upper-case
letters replaced; for any other string the result is that of
`strings.Map(unicode.ToLower, s)`, the parameter `mapLower`. -/
def ToLower (mapLower : Str → Str) (s : Str) : Str :=
  if s.all (fun c => c < 128) then s.map lowerByte else mapLower s

/-- The buffer `header` after `make([]byte, 16)` and `file.Read(header)` on
a file with the given bytes: the first 16 bytes of the file, filled up with
zero bytes; `none` when `Read` returns an error (`io.EOF` for an empty
file). -/
def readHeader (content : Str) : Option Str :=
  if content = [] then none
  else some (content.take 16 ++ List.replicate (16 - (content.take 16).length) 0)

/-- The method `Manager.detectCriageFormat` (lines 89-118).  `files` gives the
bytes of the file at a path, `none` when `os.Open` or the read fails. -/
def detectCriageFormat (files : Str → Option Str) (filename : Str) : ArchiveFormat :=
  match files filename with
  | none => FormatTarZst
  | some content =>
    match readHeader content with
    | none => FormatTarZst
    | some header =>
      let b := fun i => header.getD i 0
      if header.length ≥ 4 ∧ b 0 = 0x28 ∧ b 1 = 0xB5 ∧ b 2 = 0x2F ∧ b 3 = 0xFD then
        FormatTarZst
      else if header.length ≥ 4 ∧ b 0 = 0x04 ∧ b 1 = 0x22 ∧ b 2 = 0x4D ∧ b 3 = 0x18 then
        FormatTarLZ4
      else if header.length ≥ 6 ∧ b 0 = 0xFD ∧ b 1 = 0x37 ∧ b 2 = 0x7A ∧ b 3 = 0x58 ∧
          b 4 = 0x5A ∧ b 5 = 0x00 then
        FormatTarXZ
      else if header.length ≥ 2 ∧ b 0 = 0x1F ∧ b 1 = 0x8B then
        FormatTarGZ
      else if header.length ≥ 4 ∧ b 0 = 0x50 ∧ b 1 = 0x4B ∧ (b 2 = 0x03 ∨ b 2 = 0x05) then
        FormatZip
      else FormatTarZst

/-- The method `Manager.DetectFormat` (lines 66-86).  The name is replaced by
its lower-case form before the tests, and it is that form which
`detectCriageFormat` receives. -/
def DetectFormat (mapLower : Str → Str) (files : Str → Option Str) (filename0 : Str) :
    ArchiveFormat :=
  let filename := ToLower mapLower filename0
  if HasSuffix filename (str ".tar.zst") then FormatTarZst
  else if HasSuffix filename (str ".tar.lz4") then FormatTarLZ4
  else if HasSuffix filename (str ".tar.xz") then FormatTarXZ
  else if HasSuffix filename (str ".tar.gz") then FormatTarGZ
  else if HasSuffix filename (str ".zip") then FormatZip
  else if HasSuffix filename (str ".criage") then detectCriageFormat files filename
  else FormatTarZst

/-- The five extensions of the specification with their tags. -/
def knownSuffixes : List (Str × ArchiveFormat) :=
  [(str ".tar.zst", FormatTarZst), (str ".tar.lz4", FormatTarLZ4),
   (str ".tar.xz", FormatTarXZ), (str ".tar.gz", FormatTarGZ), (str ".zip", FormatZip)]

/-- The rule of the specification, "longest matching known suffix wins":
among the known suffixes that end `name`, one of greatest length, with its
tag; `none` when no known suffix ends `name`. -/
def longestSuffix (name : Str) : Option (Str × ArchiveFormat) :=
  (knownSuffixes.filter (fun p => HasSuffix name p.1)).foldl
    (fun best p =>
      match best with
      | none => some p
      | some b => if b.1.length < p.1.length then some p else some b)
    none

/-! ## Creation -/

mutual
/-- A source tree: a regular file with its permission bits and bytes, or a
directory with its permission bits and entries.  Symbolic links and special
files are left out. -/
inductive DirTree where
  | file (perm : Nat) (data : Str)
  | dir (perm : Nat) (entries : DirEntries)
/-- The entries of a directory, in the order in which `filepath.Walk` visits
them (`readDirNames` sorts the names). -/
inductive DirEntries where
  | nil
  | cons (name : Str) (node : DirTree) (rest : DirEntries)
end

/-- The value `info.Mode()` of a node: the permission bits, with `ModeDir`
for a directory. -/
def statMode : DirTree → Nat
  | DirTree.file perm _ => perm
  | DirTree.dir perm _ => ModeDir ||| perm

/-- The name of the reserved metadata entry. -/
def metadataName : Str := str ".criage-metadata.json"

/-- The path of an entry relative to the source root, as
`filepath.Rel(sourceDir, path)` gives it: the name for an entry of the root
(`dirRel = none`), the relative path of the directory, a separator and the
name below. -/
def relPath (dirRel : Option Str) (name : Str) : Str :=
  match dirRel with
  | none => name
  | some d => d ++ Separator :: name

mutual
/-- The walk of `filepath.Walk` with the callback of `createTarArchive` and
`createZipArchive` (lines 376-400 and 420-442) at a node other than the root:
the nodes handed to `addFileToTar` or `addFileToZip`, each with its relative
path, in order.  An excluded directory is not entered (`filepath.SkipDir`),
an excluded file is passed over. -/
def walkNode (includeFiles excludeFiles : List Str) (rel : Str) : DirTree → List (Str × DirTree)
  | DirTree.file perm data =>
    if shouldExclude rel includeFiles excludeFiles then []
    else [(rel, DirTree.file perm data)]
  | DirTree.dir perm entries =>
    if shouldExclude rel includeFiles excludeFiles then []
    else (rel, DirTree.dir perm entries) ::
      walkEntries includeFiles excludeFiles (some rel) entries
/-- The walk over the entries of a directory. -/
def walkEntries (includeFiles excludeFiles : List Str) (dirRel : Option Str) :
    DirEntries → List (Str × DirTree)
  | DirEntries.nil => []
  | DirEntries.cons name node rest =>
    walkNode includeFiles excludeFiles (relPath dirRel name) node ++
      walkEntries includeFiles excludeFiles dirRel rest
end

/-- The walk from the source root, which is itself skipped (lines 382 and
425); a root that is not a directory has nothing below it. -/
def walkSource (includeFiles excludeFiles : List Str) : DirTree → List (Str × DirTree)
  | DirTree.file _ _ => []
  | DirTree.dir _ entries => walkEntries includeFiles excludeFiles none entries

/-- The method `Manager.addFileToTar` (lines 446-477): the header and bytes
written for a node (`Size` and `ModTime` are left out). -/
def addFileToTar (node : DirTree) (archivePath : Str) : TarEntry :=
  match node with
  | DirTree.dir _ _ =>
    { Name := archivePath, Mode := (statMode node : Int), Typeflag := TypeDir, Data := [] }
  | DirTree.file _ data =>
    { Name := archivePath, Mode := (statMode node : Int), Typeflag := TypeReg, Data := data }

/-- The value of `FileInfo().Mode()` for a file that `zip.Writer.Create(name)`
wrote: `Create` records no mode (creator FAT, no external attributes), which
reads back as `0666`, with `ModeDir` when the name ends with a slash. -/
def zipCreateMode (name : Str) : Nat :=
  if name.getLast? = some Separator then ModeDir ||| 0o666 else 0o666

/-- The method `Manager.addFileToZip` (lines 480-504): a directory is created
as `archivePath + "/"`, a file as `archivePath` with its bytes. -/
def addFileToZip (node : DirTree) (archivePath : Str) : ZipEntry :=
  match node with
  | DirTree.dir _ _ =>
    { Name := archivePath ++ [Separator], Mode := zipCreateMode (archivePath ++ [Separator]),
      Open := .ok [] }
  | DirTree.file _ data =>
    { Name := archivePath, Mode := zipCreateMode archivePath, Open := .ok data }

/-- The compressor `createTarArchive` writes through (lines 349-365).  For
`tar.zst` the encoder is called on no input and `writer` is then set to the
file itself. -/
def createWriter (format : ArchiveFormat) : Codec :=
  if format = FormatTarZst then Codec.file
  else if format = FormatTarLZ4 then Codec.lz4
  else if format = FormatTarXZ then Codec.xz
  else if format = FormatTarGZ then Codec.gzip
  else Codec.file

/-- What creation hands to the archive writer, in order: the entries written
to the tar writer and the stream that writer writes to, or the files written
to the zip writer.  What the output file then holds is `Container.readTar`
and `Container.readZip`. -/
inductive Container where
  | tar (writer : Codec) (entries : List TarEntry)
  | zip (files : List ZipEntry)

/-- The temporary metadata file, written with mode `0644`. -/
def metadataNode (metadataData : Str) : DirTree := DirTree.file 0o644 metadataData

/-- The method `Manager.createTarArchive` (lines 341-401): the metadata file
first, then the walk of the source. -/
def createTarArchive (source : DirTree) (format : ArchiveFormat)
    (includeFiles excludeFiles : List Str) (metadataData : Str) : Container :=
  Container.tar (createWriter format)
    (addFileToTar (metadataNode metadataData) metadataName ::
      (walkSource includeFiles excludeFiles source).map (fun p => addFileToTar p.2 p.1))

/-- The method `Manager.createZipArchive` (lines 404-443). -/
def createZipArchive (source : DirTree) (includeFiles excludeFiles : List Str)
    (metadataData : Str) : Container :=
  Container.zip
    (addFileToZip (metadataNode metadataData) metadataName ::
      (walkSource includeFiles excludeFiles source).map (fun p => addFileToZip p.2 p.1))

/-- The method `Manager.createArchive` (lines 331-338). -/
def createArchive (source : DirTree) (format : ArchiveFormat)
    (includeFiles excludeFiles : List Str) (metadataData : Str) : Container :=
  if format = FormatZip then createZipArchive source includeFiles excludeFiles metadataData
  else createTarArchive source format includeFiles excludeFiles metadataData

/-- The package manifest `types.PackageManifest`, by its scalar fields. -/
structure PackageManifest where
  Name : Str
  Version : Str
  Description : Str
  Author : Str
  License : Str
  deriving DecidableEq, Repr

/-- The build manifest `types.BuildManifest`, by its scalar fields. -/
structure BuildManifest where
  Name : Str
  Version : Str
  OutputDir : Str
  deriving DecidableEq, Repr

/-- The record `types.PackageMetadata`; a nil pointer is `none`, the time
`CreatedAt` a number. -/
structure PackageMetadata where
  PackageManifest : Option PackageManifest
  BuildManifest : Option BuildManifest
  CompressionType : Str
  CreatedAt : Nat
  CreatedBy : Str
  Version : Str
  deriving DecidableEq, Repr

/-- The method `Manager.CreateArchiveWithMetadata` (lines 308-328) on a source
tree held in memory.  `marshal` is `json.MarshalIndent(metadata, "", "  ")`. -/
def CreateArchiveWithMetadata (marshal : PackageMetadata → Except Error Str)
    (source : DirTree) (format : ArchiveFormat) (includeFiles excludeFiles : List Str)
    (metadata : PackageMetadata) : Except Error Container :=
  match marshal metadata with
  | .error e => .error e
  | .ok metadataData => .ok (createArchive source format includeFiles excludeFiles metadataData)

/-- The names of the entries handed to the archive writer, in order. -/
def Container.names : Container → List Str
  | Container.tar _ entries => entries.map (fun e => e.Name)
  | Container.zip files => files.map (fun f => f.Name)

/-- The bytes of the entries handed to the archive writer, in order. -/
def Container.contents : Container → List (Except Error Str)
  | Container.tar _ entries => entries.map (fun e => .ok e.Data)
  | Container.zip files => files.map (fun f => f.Open)

/-- Whether the stream that `createTarArchive` writes the tar archive to is
complete when the method returns (lines 341-370): the file is closed by the
deferred `file.Close`, after the deferred `tarWriter.Close`; the lz4, xz and
gzip writers made at lines 354-362 are never closed nor flushed. -/
def writerClosed : Codec → Bool
  | Codec.file => true
  | _ => false

/-- What the tar reader of extraction gets from the output file behind the
decompressor `reader`.  A stream written to the file itself reads back
whole, through no decompressor.  A stream written through a compressor that
was never closed has reached the file only as far as the compressor has
flushed it on its own (for a small archive, the header of the codec alone):
what the matching decompressor makes of such a file is the parameter
`unclosed`. -/
def Container.readTar (unclosed : Codec → List TarEntry → Except Error TarStream) :
    Container → Codec → Except Error TarStream
  | Container.tar writer entries, reader =>
    if reader = writer then
      if writerClosed writer then .ok { entries := entries, trailer := none }
      else unclosed writer entries
    else .error (Error.sys 0)
  | Container.zip _, _ => .error (Error.sys 0)

/-- What `zip.OpenReader` gets from the output file: the files written, in
order (the deferred `zipWriter.Close` of line 412 writes the directory of
the zip file before the file is closed). -/
def Container.readZip : Container → Except Error (List ZipEntry)
  | Container.tar _ _ => .error (Error.sys 0)
  | Container.zip files => .ok files

/-- The output file as the readers of extraction see it. -/
def Container.toArchive (unclosed : Codec → List TarEntry → Except Error TarStream)
    (container : Container) : Archive where
  tar := container.readTar unclosed
  zip := container.readZip

/-- The names of the entries at the root of a source tree. -/
def DirEntries.names : DirEntries → List Str
  | DirEntries.nil => []
  | DirEntries.cons name _ rest => name :: DirEntries.names rest

/-- The names at the root of the source. -/
def rootNames : DirTree → List Str
  | DirTree.file _ _ => []
  | DirTree.dir _ entries => entries.names

/-! ## Round trip and sample values -/

/-- The round trip `extract(create(T, F), F)` on the in-memory file system,
starting from the empty one: the file system it leaves and the error, if
any, of creation or of extraction.  `unclosed` is what a decompressor makes
of a file whose compressor was never closed. -/
def roundTrip (unclosed : Codec → List TarEntry → Except Error TarStream)
    (marshal : PackageMetadata → Except Error Str) (source : DirTree)
    (format : ArchiveFormat) (includeFiles excludeFiles : List Str)
    (metadata : PackageMetadata) (destDir : Str) : MemFS × Option Error :=
  match CreateArchiveWithMetadata marshal source format includeFiles excludeFiles metadata with
  | .error e => ([], some e)
  | .ok container => ExtractArchive memOS [] (container.toArchive unclosed) destDir format

/-- A metadata record. -/
def sampleMetadata : PackageMetadata :=
  { PackageManifest := none, BuildManifest := none, CompressionType := str "zip",
    CreatedAt := 0, CreatedBy := str "criage", Version := str "1.0.0" }

/-- A serializer that succeeds, with the bytes `{}`. -/
def sampleMarshal : PackageMetadata → Except Error Str := fun _ => .ok (str "{}")

/-- A source tree with one executable file, `run.sh`, of mode `0755`. -/
def scriptTree : DirTree :=
  DirTree.dir 0o755 (DirEntries.cons (str "run.sh") (DirTree.file 0o755 (str "#!")) DirEntries.nil)

/-- A source tree with a file of its own named `.criage-metadata.json`. -/
def collidingTree : DirTree :=
  DirTree.dir 0o755
    (DirEntries.cons (str ".criage-metadata.json") (DirTree.file 0o644 (str "mine"))
      DirEntries.nil)

/-- A tar entry for a regular file of mode `0644` with the bytes `x`. -/
def regEntry (name : Str) : TarEntry :=
  { Name := name, Mode := 0o644, Typeflag := TypeReg, Data := str "x" }

/-- A zip file entry for a regular file of mode `0644` with the bytes `x`. -/
def zipFileEntry (name : Str) : ZipEntry :=
  { Name := name, Mode := 0o644, Open := .ok (str "x") }

/-- A directory holding one file, `Pkg.CRIAGE`, that begins with the gzip
magic; no file is named `pkg.criage`. -/
def gzipNamedUpper : Str → Option Str :=
  fun p => if p = str "Pkg.CRIAGE" then some [0x1F, 0x8B, 0x08, 0x00] else none

/-- A directory holding one file, `x.criage`, that begins with the bytes
`50 4B 03 00`. -/
def almostZip : Str → Option Str :=
  fun p => if p = str "x.criage" then some [0x50, 0x4B, 0x03, 0x00] else none

/-- A tar entry for a directory of mode `0755`. -/
def dirEntry (name : Str) : TarEntry :=
  { Name := name, Mode := (ModeDir : Int) + 0o755, Typeflag := TypeDir, Data := [] }

/-- A format tag outside the five supported ones. -/
def FormatRar : ArchiveFormat := str "rar"

/-! ## Metadata lookup -/

/-- The file-system calls of the metadata lookup, besides those of
extraction. -/
structure MetaOS (σ : Type) extends OS σ where
  /-- The call `os.MkdirTemp("", "criage-metadata-*")`: the state it leaves and
  the directory created, or the error. -/
  MkdirTemp : σ → σ × Except Error Str
  /-- The deferred call `os.RemoveAll(path)`, whose error is dropped. -/
  RemoveAll : σ → Str → σ
  /-- The value of `os.IsNotExist(err)` for the `err` of `os.Stat(path)`. -/
  StatNotExist : σ → Str → Bool
  /-- The call `os.ReadFile(path)`. -/
  ReadFile : σ → Str → Except Error Str

/-- The name of the package manifest looked for when the metadata entry is
absent. -/
def manifestName : Str := str "criage.yaml"

/-- The method `Manager.extractMetadataOnly` (lines 292-295): the whole
archive is extracted. -/
def extractMetadataOnly {σ : Type} (os : OS σ) (fs : σ) (archive : Archive) (destDir : Str)
    (format : ArchiveFormat) : σ × Option Error :=
  ExtractArchive os fs archive destDir format

/-- The method `Manager.createMetadataFromManifest` (lines 298-305): the
manifest is not read; the record holds the creator and the version of the
manager, its other fields are zero. -/
def createMetadataFromManifest (version : Str) (_manifestPath : Str) :
    Except Error PackageMetadata :=
  .ok { PackageManifest := none, BuildManifest := none, CompressionType := [],
        CreatedAt := 0, CreatedBy := str "criage", Version := version }

/-- The lookup of `ExtractMetadataFromArchive` (lines 267-288) in the scratch
directory after extraction.  `unmarshal` is `json.Unmarshal` into a
`PackageMetadata`. -/
def lookupMetadata {σ : Type} (os : MetaOS σ) (unmarshal : Str → Except Error PackageMetadata)
    (version : Str) (fs : σ) (tempDir : Str) : Except Error PackageMetadata :=
  let metadataFile := Join [tempDir, metadataName]
  if os.StatNotExist fs metadataFile then
    let manifestFile := Join [tempDir, manifestName]
    if os.StatNotExist fs manifestFile then .error Error.noMetadata
    else createMetadataFromManifest version manifestFile
  else
    match os.ReadFile fs metadataFile with
    | .error e => .error e
    | .ok data => unmarshal data

/-- The method `Manager.ExtractMetadataFromArchive` (lines 253-289), for a
manager of the given version: the state it leaves, and the record or the
error.  The scratch directory is removed on every return after its
creation. -/
def ExtractMetadataFromArchive {σ : Type} (os : MetaOS σ)
    (unmarshal : Str → Except Error PackageMetadata) (version : Str) (fs : σ)
    (archive : Archive) (format : ArchiveFormat) : σ × Except Error PackageMetadata :=
  match os.MkdirTemp fs with
  | (fs1, .error e) => (fs1, .error e)
  | (fs1, .ok tempDir) =>
    match extractMetadataOnly os.toOS fs1 archive tempDir format with
    | (fs2, some e) => (os.RemoveAll fs2 tempDir, .error e)
    | (fs2, none) => (os.RemoveAll fs2 tempDir, lookupMetadata os unmarshal version fs2 tempDir)

/-- The owner may read a node of these permission bits (bit `0400`). -/
def ownerRead (perm : Nat) : Bool := perm / 256 % 2 = 1

/-- The in-memory operating system with the calls of the metadata lookup.
The scratch directory is `/tmp/criage-metadata-1`.  Of the errors of
`os.Stat`, only `ENOENT` counts for `os.IsNotExist`. -/
def memMetaOS : MetaOS MemFS where
  MkdirAll := memOS.MkdirAll
  OpenFile := memOS.OpenFile
  Copy := memOS.Copy
  MkdirTemp := fun fs =>
    match memOS.MkdirAll fs (str "/tmp/criage-metadata-1") 0o700 with
    | (fs1, some e) => (fs1, .error e)
    | (fs1, none) => (fs1, .ok (str "/tmp/criage-metadata-1"))
  RemoveAll := fun fs path =>
    fs.filter (fun kv => kv.1 ≠ Clean path ∧ !HasPrefix kv.1 (Clean path ++ [Separator]))
  StatNotExist := fun fs path =>
    if path = [] then true
    else
      match lookupDir fs 0o777 (ancestors (Dir (Clean path))) with
      | .error e => decide (e = Error.sys 2)
      | .ok parent =>
        if !ownerSearch parent then false
        else
          match fs.get (Clean path) with
          | some _ => false
          | none => !alwaysDir (Clean path)
  ReadFile := fun fs path =>
    if path = [] then .error (Error.sys 2)
    else
      match lookupDir fs 0o777 (ancestors (Dir (Clean path))) with
      | .error e => .error e
      | .ok parent =>
        if !ownerSearch parent then .error (Error.sys 13)
        else
          match fs.get (Clean path) with
          | some (Node.file perm data) =>
            if ownerRead perm then .ok data else .error (Error.sys 13)
          | some (Node.dir _) => .error (Error.sys 21)
          | none => .error (Error.sys (if alwaysDir (Clean path) then 21 else 2))

/-- A decoder of metadata that accepts the bytes `{}` only, as the record
`sampleMetadata`. -/
def sampleUnmarshal : Str → Except Error PackageMetadata :=
  fun data => if data = str "{}" then .ok sampleMetadata else .error (Error.sys 1)

/-- A tar entry for a regular file of mode `0644` with the given bytes. -/
def fileEntry (name data : Str) : TarEntry :=
  { Name := name, Mode := 0o644, Typeflag := TypeReg, Data := data }

/-! ## The tree walk, as the specification words it -/

/-- The order of Go strings, `a < b`: the order of their bytes, a proper
prefix first. -/
def strLt : Str → Str → Bool
  | [], [] => false
  | [], _ :: _ => true
  | _ :: _, [] => false
  | a :: as, b :: bs => if a < b then true else if b < a then false else strLt as bs

/-- Insertion of an entry into a sorted directory listing, after the names
that are less than its name. -/
def insertEntry (name : Str) (node : DirTree) : DirEntries → DirEntries
  | DirEntries.nil => DirEntries.cons name node DirEntries.nil
  | DirEntries.cons name2 node2 rest =>
    if strLt name2 name then DirEntries.cons name2 node2 (insertEntry name node rest)
    else DirEntries.cons name node (DirEntries.cons name2 node2 rest)

mutual
/-- The tree with the entries of every directory sorted by name, the order
in which `readDirNames` hands them to `filepath.Walk`. -/
def sortTree : DirTree → DirTree
  | DirTree.file perm data => DirTree.file perm data
  | DirTree.dir perm entries => DirTree.dir perm (sortEntries entries)
/-- The entries of a directory sorted by name, each subtree sorted. -/
def sortEntries : DirEntries → DirEntries
  | DirEntries.nil => DirEntries.nil
  | DirEntries.cons name node rest => insertEntry name (sortTree node) (sortEntries rest)
end

/-- The name of the first entry of a listing is not less than `name` (true
for the empty listing). -/
def headNotBefore (name : Str) : DirEntries → Bool
  | DirEntries.nil => true
  | DirEntries.cons name2 _ _ => !strLt name2 name

mutual
/-- The entries of every directory of the tree are listed in ascending order
of their names. -/
def DirTree.sorted : DirTree → Bool
  | DirTree.file _ _ => true
  | DirTree.dir _ entries => entries.sorted
/-- The listing is in ascending order of names, and so are the listings
below it. -/
def DirEntries.sorted : DirEntries → Bool
  | DirEntries.nil => true
  | DirEntries.cons name node rest => node.sorted && rest.sorted && headNotBefore name rest
end

mutual
/-- The entries of the tree at and below a node, depth first, each with its
relative path and the relative paths of its ancestor directories below the
source root. -/
def listNode (ancestors : List Str) (rel : Str) : DirTree → List (Str × List Str × DirTree)
  | DirTree.file perm data => [(rel, ancestors, DirTree.file perm data)]
  | DirTree.dir perm entries =>
    (rel, ancestors, DirTree.dir perm entries) ::
      listEntries (rel :: ancestors) (some rel) entries
/-- The entries at and below the entries of a directory, depth first. -/
def listEntries (ancestors : List Str) (dirRel : Option Str) :
    DirEntries → List (Str × List Str × DirTree)
  | DirEntries.nil => []
  | DirEntries.cons name node rest =>
    listNode ancestors (relPath dirRel name) node ++ listEntries ancestors dirRel rest
end

/-- The entries of the source tree other than its root, depth first. -/
def listSource : DirTree → List (Str × List Str × DirTree)
  | DirTree.file _ _ => []
  | DirTree.dir _ entries => listEntries [] none entries

/-- The entries that creation is to write after the metadata entry, in the
words of the specification: the entries of the tree other than the root, in
depth-first lexical order, for which `shouldExclude` is false on the
relative path of the entry and on that of every ancestor directory below the
root. -/
def keptEntries (includeFiles excludeFiles : List Str) (source : DirTree) :
    List (Str × DirTree) :=
  ((listSource (sortTree source)).filter (fun e =>
      !shouldExclude e.1 includeFiles excludeFiles &&
      e.2.1.all (fun a => !shouldExclude a includeFiles excludeFiles))).map
    (fun e => (e.1, e.2.2))

/-- A source tree: the directory `a` with the files `x.go` and `y.tmp`, and
the files `b.go` and `c.tmp`. -/
def walkTree : DirTree :=
  DirTree.dir 0o755
    (DirEntries.cons (str "a")
      (DirTree.dir 0o755
        (DirEntries.cons (str "x.go") (DirTree.file 0o644 (str "1"))
          (DirEntries.cons (str "y.tmp") (DirTree.file 0o644 (str "2")) DirEntries.nil)))
      (DirEntries.cons (str "b.go") (DirTree.file 0o644 (str "3"))
        (DirEntries.cons (str "c.tmp") (DirTree.file 0o644 (str "4")) DirEntries.nil)))

/-! # Theorems -/
/-! ## Path elements -/

theorem splitSep_ne_nil (s : Str) : splitSep s ≠ [] := by
  cases s with
  | nil => simp [splitSep]
  | cons c cs =>
    unfold splitSep
    split
    · simp
    · split <;> simp

theorem splitSep_cons_sep (s : Str) : splitSep (Separator :: s) = [] :: splitSep s := by
  simp [splitSep]

theorem splitSep_cons_other (c : Nat) (s h : Str) (t : List Str) (hc : c ≠ Separator)
    (hs : splitSep s = h :: t) : splitSep (c :: s) = (c :: h) :: t := by
  simp [splitSep, hc, hs]

/-- Cutting `a ++ "/" ++ b` gives the elements of `a` followed by those of `b`. -/
theorem splitSep_append_sep (a b : Str) :
    splitSep (a ++ Separator :: b) = splitSep a ++ splitSep b := by
  induction a with
  | nil => simp [splitSep]
  | cons c cs ih =>
    by_cases hc : c = Separator
    · subst hc
      simp only [List.cons_append, splitSep_cons_sep, ih]
    · obtain ⟨h, t, hs⟩ := List.exists_cons_of_ne_nil (splitSep_ne_nil cs)
      have h1 : splitSep (cs ++ Separator :: b) = h :: (t ++ splitSep b) := by
        rw [ih, hs]; rfl
      rw [List.cons_append, splitSep_cons_other c _ _ _ hc h1,
        splitSep_cons_other c _ _ _ hc hs]
      rfl

theorem splitSep_no_sep (s : Str) : ∀ e ∈ splitSep s, Separator ∉ e := by
  induction s with
  | nil => simp [splitSep]
  | cons c cs ih =>
    by_cases hc : c = Separator
    · subst hc
      rw [splitSep_cons_sep]
      intro e he
      rcases List.mem_cons.1 he with rfl | he
      · simp
      · exact ih e he
    · obtain ⟨h, t, hs⟩ := List.exists_cons_of_ne_nil (splitSep_ne_nil cs)
      rw [splitSep_cons_other c _ _ _ hc hs]
      intro e he
      rcases List.mem_cons.1 he with rfl | he
      · intro hm
        rcases List.mem_cons.1 hm with h1 | h1
        · exact hc h1.symm
        · exact ih h (by rw [hs]; exact List.mem_cons_self _ _) h1
      · exact ih e (by rw [hs]; exact List.mem_cons_of_mem _ he)

theorem splitSep_of_no_sep (e : Str) (he : Separator ∉ e) : splitSep e = [e] := by
  induction e with
  | nil => rfl
  | cons c cs ih =>
    have hc : c ≠ Separator := fun h => he (by rw [h]; exact List.mem_cons_self _ _)
    have hcs : Separator ∉ cs := fun h => he (List.mem_cons_of_mem _ h)
    rw [splitSep_cons_other c cs cs [] hc (ih hcs)]

/-- Joining separator-free elements and cutting again gives them back. -/
theorem splitSep_joinSep (es : List Str) (hne : es ≠ []) (hs : ∀ e ∈ es, Separator ∉ e) :
    splitSep (joinSep es) = es := by
  induction es with
  | nil => exact absurd rfl hne
  | cons e rest ih =>
    cases rest with
    | nil => simpa [joinSep] using splitSep_of_no_sep e (hs e (List.mem_cons_self _ _))
    | cons e2 rest2 =>
      have h1 : joinSep (e :: e2 :: rest2) = e ++ Separator :: joinSep (e2 :: rest2) := rfl
      rw [h1, splitSep_append_sep, splitSep_of_no_sep e (hs e (List.mem_cons_self _ _)),
        ih (by simp) (fun x hx => hs x (List.mem_cons_of_mem _ hx))]
      rfl

/-! ## The shape of a cleaned path -/

theorem goodElem_dotdot : goodElem dotdot := by
  refine ⟨by decide, by decide, by decide⟩

theorem stackOK_good (rooted : Bool) : ∀ stk, stackOK rooted stk → ∀ e ∈ stk, goodElem e := by
  intro stk
  induction stk with
  | nil => intro _ e he; cases he
  | cons top rest ih =>
    intro h e he
    obtain ⟨hg, hor⟩ := h
    rcases List.mem_cons.1 he with rfl | he
    · exact hg
    · rcases hor with ⟨_, hrest⟩ | ⟨_, _, hall⟩
      · exact ih hrest e he
      · rw [hall e he]; exact goodElem_dotdot

theorem cleanElem_stackOK (rooted : Bool) (stk : List Str) (e : Str)
    (he : Separator ∉ e) (h : stackOK rooted stk) : stackOK rooted (cleanElem rooted stk e) := by
  unfold cleanElem
  split
  · exact h
  · split
    · exact h
    · split
      · rename_i hdd
        cases stk with
        | nil =>
          cases rooted with
          | true => simp [stackOK]
          | false => exact ⟨goodElem_dotdot, Or.inr ⟨rfl, rfl, by simp⟩⟩
        | cons top rest =>
          obtain ⟨hg, hor⟩ := h
          by_cases ht : top = dotdot
          · simp only [ht, if_true]
            rcases hor with ⟨hn, _⟩ | ⟨_, hr, hall⟩
            · exact absurd ht hn
            · refine ⟨goodElem_dotdot, Or.inr ⟨rfl, hr, ?_⟩⟩
              intro x hx
              rcases List.mem_cons.1 hx with rfl | hx
              · rfl
              · exact hall x hx
          · simp only [ht, if_false]
            rcases hor with ⟨_, hrest⟩ | ⟨hn, _⟩
            · exact hrest
            · exact absurd hn ht
      · rename_i h1 h2 h3
        exact ⟨⟨h1, h2, he⟩, Or.inl ⟨h3, h⟩⟩

theorem foldl_cleanElem_stackOK (rooted : Bool) :
    ∀ (l : List Str) (stk : List Str), (∀ e ∈ l, Separator ∉ e) → stackOK rooted stk →
      stackOK rooted (l.foldl (cleanElem rooted) stk) := by
  intro l
  induction l with
  | nil => intro stk _ h; exact h
  | cons e rest ih =>
    intro stk hl h
    exact ih _ (fun x hx => hl x (List.mem_cons_of_mem _ hx))
      (cleanElem_stackOK rooted stk e (hl e (List.mem_cons_self _ _)) h)

/-- Below an element that is not `..`, the output buffer holds no `..`. -/
theorem stackOK_above (rooted : Bool) :
    ∀ (x y : List Str) (t : Str), stackOK rooted (x ++ t :: y) → t ≠ dotdot →
      ∀ e ∈ x, e ≠ dotdot := by
  intro x
  induction x with
  | nil => intro _ _ _ _ e he; cases he
  | cons top rest ih =>
    intro y t h ht e he
    obtain ⟨_, hor⟩ := h
    rcases hor with ⟨hn, hrest⟩ | ⟨_, _, hall⟩
    · rcases List.mem_cons.1 he with rfl | he
      · exact hn
      · exact ih y t hrest ht e he
    · exact absurd (hall t (by simp)) ht


/-! ## The loop of `filepath.Clean` and the fold over the path elements -/

theorem backtrack_stop (d : Nat) (y : Str) (hy : y.length = d) :
    ∀ x : Str, x ≠ [] → Separator ∉ x → backtrack d (x ++ y) = y := by
  intro x
  induction x with
  | nil => intro h; exact absurd rfl h
  | cons b x ih =>
    intro _ hs
    have hb : b ≠ Separator := fun h => hs (by rw [h]; exact List.mem_cons_self _ _)
    have hx : Separator ∉ x := fun h => hs (List.mem_cons_of_mem _ h)
    cases x with
    | nil => simp [backtrack, hy]
    | cons b2 x2 =>
      have hlen : (b2 :: x2 ++ y).length > d := by simp; omega
      rw [List.cons_append, backtrack, if_pos ⟨hlen, hb⟩]
      exact ih (by simp) hx

theorem backtrack_sep (d : Nat) (z : Str) (hz : d ≤ z.length) :
    ∀ x : Str, Separator ∉ x → backtrack d (x ++ Separator :: z) = z := by
  intro x
  induction x with
  | nil => intro _; simp [backtrack]
  | cons b x ih =>
    intro hs
    have hb : b ≠ Separator := fun h => hs (by rw [h]; exact List.mem_cons_self _ _)
    have hx : Separator ∉ x := fun h => hs (List.mem_cons_of_mem _ h)
    have hlen : (x ++ Separator :: z).length > d := by simp; omega
    rw [List.cons_append, backtrack, if_pos ⟨hlen, hb⟩]
    exact ih hx

theorem bufOf_cons_nil (rooted : Bool) (e : Str) :
    bufOf rooted [e] = e.reverse ++ bufOf rooted [] := rfl

theorem bufOf_cons_cons (rooted : Bool) (e e2 : Str) (rest : List Str) :
    bufOf rooted (e :: e2 :: rest) = e.reverse ++ Separator :: bufOf rooted (e2 :: rest) := rfl

theorem ddOf_cons_of_ne (rooted : Bool) (e : Str) (stk : List Str) (he : e ≠ dotdot) :
    ddOf rooted (e :: stk) = ddOf rooted stk := by
  simp [ddOf, List.dropWhile, he]

theorem ddOf_le (rooted : Bool) : ∀ stk : List Str, ddOf rooted stk ≤ (bufOf rooted stk).length := by
  intro stk
  cases rooted with
  | true =>
    cases stk with
    | nil => simp [ddOf, bufOf]
    | cons e rest =>
      cases rest with
      | nil => simp [ddOf, bufOf]
      | cons e2 r2 =>
        rw [bufOf_cons_cons]
        simp only [ddOf, if_true, List.length_append, List.length_cons]
        omega
  | false =>
    induction stk with
    | nil => simp [ddOf, bufOf]
    | cons e rest ih =>
      by_cases he : e = dotdot
      · simp [ddOf, List.dropWhile, he]
      · rw [ddOf_cons_of_ne _ _ _ he]
        cases rest with
        | nil => simp [ddOf, bufOf]
        | cons e2 r2 =>
          rw [bufOf_cons_cons]
          simp only [List.length_append, List.length_cons]
          omega

/-- The buffer is at its start (the leading slash, or nothing) exactly
when it holds no element. -/
theorem bufOf_start (rooted : Bool) (stk : List Str) (hg : ∀ e ∈ stk, goodElem e) :
    ((rooted = true ∧ (bufOf rooted stk).length ≠ 1) ∨
      ((!rooted) = true ∧ (bufOf rooted stk).length ≠ 0)) ↔ stk ≠ [] := by
  cases stk with
  | nil => cases rooted <;> simp [bufOf]
  | cons e rest =>
    have hne : e ≠ [] := (hg e (List.mem_cons_self _ _)).1
    have hpos : 0 < e.length := List.length_pos.2 hne
    have hlen : ∀ r : Str, (e.reverse ++ r).length = e.length + r.length := by
      intro r; simp
    cases rest with
    | nil =>
      rw [bufOf_cons_nil, hlen]
      cases rooted
      · simpa [bufOf] using hne
      · simpa [bufOf] using hne
    | cons e2 r2 =>
      rw [bufOf_cons_cons, hlen]
      cases rooted
      · simp
      · simp; omega

/-- The first element of a path is its bytes before the first separator;
the other elements are those of the path after that separator. -/
theorem splitSep_span (p : Str) :
    splitSep p =
      p.takeWhile (fun b => b ≠ Separator) ::
        (match p.dropWhile (fun b => b ≠ Separator) with
         | [] => []
         | _ :: r => splitSep r) := by
  induction p with
  | nil => rfl
  | cons c cs ih =>
    by_cases hc : c = Separator
    · subst hc
      rw [splitSep_cons_sep]
      simp [List.takeWhile, List.dropWhile]
    · rw [splitSep_cons_other c cs _ _ hc ih]
      simp [List.takeWhile, List.dropWhile, hc]

theorem foldl_cleanElem_nil (rooted : Bool) (stk : List Str) (l : List Str) :
    ([] :: l).foldl (cleanElem rooted) stk = l.foldl (cleanElem rooted) stk := by
  simp [cleanElem]

theorem foldl_cleanElem_splitSep_sep (rooted : Bool) (stk : List Str) (r : Str) :
    (splitSep (Separator :: r)).foldl (cleanElem rooted) stk =
      (splitSep r).foldl (cleanElem rooted) stk := by
  rw [splitSep_cons_sep, foldl_cleanElem_nil]

theorem foldl_cleanElem_splitSep_nil (rooted : Bool) (stk : List Str) :
    (splitSep []).foldl (cleanElem rooted) stk = stk := by
  simp [splitSep, cleanElem]

/-- What remains after an element, `rest`, is empty or begins with a
separator: folding over its elements is folding over the elements after the
one just read. -/
theorem foldl_after_elem (rooted : Bool) (stk : List Str) (p : Str) :
    (splitSep (p.dropWhile (fun b => b ≠ Separator))).foldl (cleanElem rooted) stk =
      (match p.dropWhile (fun b => b ≠ Separator) with
       | [] => []
       | _ :: r => splitSep r).foldl (cleanElem rooted) stk := by
  have hhead : ∀ b r, p.dropWhile (fun b => b ≠ Separator) = b :: r → b = Separator := by
    intro b r h
    have := List.head_dropWhile_not (fun b => decide (b ≠ Separator)) p
      (by rw [h]; simp)
    simp only [h, List.head_cons] at this
    simpa using this
  cases h : p.dropWhile (fun b => b ≠ Separator) with
  | nil => simp [splitSep, cleanElem]
  | cons b r =>
    have hb := hhead b r h
    subst hb
    simp only []
    rw [foldl_cleanElem_splitSep_sep]

theorem cleanElem_dotdot (rooted : Bool) (stk : List Str) :
    cleanElem rooted stk dotdot =
      (match stk with
       | top :: rest => if top = dotdot then dotdot :: stk else rest
       | [] => if rooted then [] else [dotdot]) := by
  simp [cleanElem, dotdot, dot]

/-- The step of `Clean` on the element `..`: the buffer and the variable
`dotdot` after it are those of the elements after `cleanElem`. -/
theorem dotdot_step (rooted : Bool) (stk : List Str) (hs : stackOK rooted stk)
    (F : Str → Nat → Str) :
    (if (bufOf rooted stk).length > ddOf rooted stk then
        F (backtrack (ddOf rooted stk) (bufOf rooted stk)) (ddOf rooted stk)
      else if (!rooted) = true then
        F (46 :: 46 ::
            (if (bufOf rooted stk).length > 0 then Separator :: bufOf rooted stk
             else bufOf rooted stk))
          ((if (bufOf rooted stk).length > 0 then Separator :: bufOf rooted stk
             else bufOf rooted stk).length + 2)
      else F (bufOf rooted stk) (ddOf rooted stk)) =
    F (bufOf rooted (cleanElem rooted stk dotdot)) (ddOf rooted (cleanElem rooted stk dotdot)) := by
  rw [cleanElem_dotdot]
  cases stk with
  | nil =>
    cases rooted with
    | true => simp [bufOf, ddOf]
    | false => simp [bufOf, ddOf, dotdot]
  | cons top rest =>
    obtain ⟨hg, hor⟩ := hs
    rcases hor with ⟨hn, hrest⟩ | ⟨ht, hr, hall⟩
    · -- an ordinary element on top: backtrack over it
      have hdd : ddOf rooted (top :: rest) = ddOf rooted rest := ddOf_cons_of_ne _ _ _ hn
      have hsep : Separator ∉ top.reverse := fun h => hg.2.2 (List.mem_reverse.1 h)
      have hne : top.reverse ≠ [] := fun h => hg.1 (List.reverse_eq_nil_iff.1 h)
      have hpos : 0 < top.length := List.length_pos.2 hg.1
      simp only [hn, if_false]
      cases rest with
      | nil =>
        have hlen : (bufOf rooted [top]).length > ddOf rooted [top] := by
          rw [hdd, bufOf_cons_nil]
          cases rooted <;> simp [ddOf, bufOf] <;> omega
        rw [if_pos hlen, hdd, bufOf_cons_nil]
        rw [backtrack_stop _ _ (by cases rooted <;> simp [ddOf, bufOf]) _ hne hsep]
      | cons e2 r2 =>
        have hle := ddOf_le rooted (e2 :: r2)
        have hlen : (bufOf rooted (top :: e2 :: r2)).length > ddOf rooted (top :: e2 :: r2) := by
          rw [hdd, bufOf_cons_cons]
          simp only [List.length_append, List.length_cons]
          omega
        rw [if_pos hlen, hdd, bufOf_cons_cons, backtrack_sep _ _ hle _ hsep]
    · -- a chain of `..`: append one more
      subst ht
      subst hr
      have hdd : ddOf false (dotdot :: rest) = (bufOf false (dotdot :: rest)).length := by
        simp [ddOf, List.dropWhile]
      have hpos : (bufOf false (dotdot :: rest)).length > 0 := by
        cases rest with
        | nil => simp [bufOf, dotdot]
        | cons e2 r2 => rw [bufOf_cons_cons]; simp
      simp only [if_true]
      rw [if_neg (by rw [hdd]; exact Nat.lt_irrefl _)]
      simp only [Bool.not_false, if_true, if_pos hpos]
      have h1 : bufOf false (dotdot :: dotdot :: rest) =
          46 :: 46 :: Separator :: bufOf false (dotdot :: rest) := by
        rw [bufOf_cons_cons]; rfl
      have h2 : ddOf false (dotdot :: dotdot :: rest) =
          (Separator :: bufOf false (dotdot :: rest)).length + 2 := by
        simp only [ddOf, Bool.false_eq_true, if_false, List.dropWhile]
        simp [bufOf_cons_cons, dotdot]
      rw [h1, h2]

theorem dropWhile_length_le (p : Str) :
    (p.dropWhile (fun b => b ≠ Separator)).length ≤ p.length := by
  exact (List.dropWhile_suffix _).length_le

theorem takeWhile_no_sep (p : Str) : Separator ∉ p.takeWhile (fun b => b ≠ Separator) := by
  intro h
  have := List.mem_takeWhile_imp h
  simp at this

/-- The step of `Clean` on an ordinary element: a separator is written
unless the buffer is at its start, then the element. -/
theorem push_step (rooted : Bool) (stk : List Str) (e : Str) (hs : stackOK rooted stk) :
    e.reverse ++
      (if (rooted = true ∧ (bufOf rooted stk).length ≠ 1) ∨
          ((!rooted) = true ∧ (bufOf rooted stk).length ≠ 0) then
        Separator :: bufOf rooted stk
       else bufOf rooted stk) = bufOf rooted (e :: stk) := by
  have hg := stackOK_good rooted stk hs
  cases stk with
  | nil =>
    rw [if_neg (by rw [bufOf_start rooted [] hg]; simp)]
    rfl
  | cons e2 r2 =>
    rw [if_pos (by rw [bufOf_start rooted _ hg]; simp)]
    rfl

/-- The loop of `Clean` computes, on the buffer, the fold of `cleanElem`
over the path elements still to be read. -/
theorem cleanLoop_eq (rooted : Bool) :
    ∀ (fuel : Nat) (p : Str) (stk : List Str), p.length < fuel → stackOK rooted stk →
      cleanLoop rooted fuel p (bufOf rooted stk) (ddOf rooted stk) =
        bufOf rooted ((splitSep p).foldl (cleanElem rooted) stk) := by
  intro fuel
  induction fuel with
  | zero => intro p stk h; exact absurd h (Nat.not_lt_zero _)
  | succ fuel ih =>
    intro p stk hlen hs
    cases p with
    | nil => rw [foldl_cleanElem_splitSep_nil]; rfl
    | cons c rest =>
      have hrest : rest.length < fuel := by simpa using hlen
      unfold cleanLoop
      by_cases h1 : c = Separator
      · -- an empty element
        subst h1
        rw [if_pos rfl, ih rest stk hrest hs, foldl_cleanElem_splitSep_sep]
      · rw [if_neg h1]
        by_cases h2 : c = 46 ∧ (rest = [] ∨ rest.head? = some Separator)
        · -- the element `.`
          rw [if_pos h2, ih rest stk hrest hs]
          obtain ⟨hc, hr⟩ := h2
          subst hc
          cases rest with
          | nil =>
            have hsp : splitSep [46] = [dot] := by decide
            rw [hsp, foldl_cleanElem_splitSep_nil]
            simp [cleanElem]
          | cons b r =>
            have hb : b = Separator := by simpa using hr
            subst hb
            rw [splitSep_cons_other 46 _ _ _ (by decide) (splitSep_cons_sep r),
              splitSep_cons_sep]
            simp [cleanElem, dot]
        · rw [if_neg h2]
          by_cases h3 : c = 46 ∧ rest.head? = some 46 ∧
              (rest.tail = [] ∨ rest.tail.head? = some Separator)
          · -- the element `..`
            rw [if_pos h3]
            obtain ⟨hc, hr, ht⟩ := h3
            subst hc
            cases rest with
            | nil => simp at hr
            | cons b rest2 =>
              have hb : b = 46 := by simpa using hr
              subst hb
              have hrest2 : rest2.length < fuel := by
                simp only [List.length_cons] at hrest; omega
              try simp only [List.tail_cons] at ht
              try simp only [List.tail_cons]
              rw [dotdot_step rooted stk hs (fun out d => cleanLoop rooted fuel rest2 out d)]
              rw [ih rest2 _ hrest2 (cleanElem_stackOK rooted stk dotdot (by decide) hs)]
              cases rest2 with
              | nil =>
                have hsp : splitSep [46, 46] = [dotdot] := by decide
                rw [hsp]
                simp [splitSep, cleanElem]
              | cons b2 r =>
                have hb2 : b2 = Separator := by simpa using ht
                subst hb2
                have hsp : splitSep (46 :: 46 :: Separator :: r) = dotdot :: splitSep r := by
                  rw [splitSep_cons_other 46 _ _ _ (by decide)
                    (splitSep_cons_other 46 _ _ _ (by decide) (splitSep_cons_sep r))]
                  rfl
                rw [hsp, splitSep_cons_sep]
                simp [cleanElem]
          · -- an ordinary element
            rw [if_neg h3]
            have hsp := splitSep_span (c :: rest)
            have hne : (c :: rest).takeWhile (fun b => b ≠ Separator) ≠ [] := by
              simp [List.takeWhile, h1]
            have hnsep := takeWhile_no_sep (c :: rest)
            have hndot : (c :: rest).takeWhile (fun b => b ≠ Separator) ≠ dot := by
              intro hd
              apply h2
              simp only [List.takeWhile, h1, ne_eq, not_false_eq_true, decide_True, dot,
                List.cons.injEq] at hd
              refine ⟨hd.1, ?_⟩
              cases rest with
              | nil => left; rfl
              | cons b r =>
                right
                by_cases hb : b = Separator
                · simp [hb]
                · simp [List.takeWhile, hb] at hd
            have hndd : (c :: rest).takeWhile (fun b => b ≠ Separator) ≠ dotdot := by
              intro hd
              apply h3
              simp only [List.takeWhile, h1, ne_eq, not_false_eq_true, decide_True, dotdot,
                List.cons.injEq] at hd
              refine ⟨hd.1, ?_⟩
              cases rest with
              | nil => simp [List.takeWhile] at hd
              | cons b r =>
                by_cases hb : b = Separator
                · simp [List.takeWhile, hb] at hd
                · simp only [List.takeWhile, hb, ne_eq, not_false_eq_true, decide_True,
                    List.cons.injEq] at hd
                  refine ⟨by simp [hd.2.1], ?_⟩
                  cases r with
                  | nil => left; rfl
                  | cons b2 r2 =>
                    right
                    by_cases hb2 : b2 = Separator
                    · simp [hb2]
                    · simp [List.takeWhile, hb2] at hd
            have hgood : goodElem ((c :: rest).takeWhile (fun b => b ≠ Separator)) :=
              ⟨hne, hndot, hnsep⟩
            have hs2 : stackOK rooted ((c :: rest).takeWhile (fun b => b ≠ Separator) :: stk) :=
              ⟨hgood, Or.inl ⟨hndd, hs⟩⟩
            have hlen2 : ((c :: rest).dropWhile (fun b => b ≠ Separator)).length < fuel := by
              have := dropWhile_length_le rest
              have h4 : (c :: rest).dropWhile (fun b => b ≠ Separator) =
                  rest.dropWhile (fun b => b ≠ Separator) := by
                simp [List.dropWhile, h1]
              rw [h4]; omega
            simp only []
            rw [push_step rooted stk _ hs, ← ddOf_cons_of_ne rooted _ stk hndd,
              ih _ _ hlen2 hs2, foldl_after_elem, hsp]
            simp only [List.foldl_cons]
            have hce : cleanElem rooted stk ((c :: rest).takeWhile (fun b => b ≠ Separator)) =
                (c :: rest).takeWhile (fun b => b ≠ Separator) :: stk := by
              simp only [cleanElem, hne, hndot, hndd, if_false]
            rw [hce]

theorem joinSep_concat (a : List Str) (e : Str) (ha : a ≠ []) :
    joinSep (a ++ [e]) = joinSep a ++ Separator :: e := by
  induction a with
  | nil => exact absurd rfl ha
  | cons x rest ih =>
    cases rest with
    | nil => rfl
    | cons y r =>
      have h1 : joinSep (x :: y :: r ++ [e]) = x ++ Separator :: joinSep (y :: r ++ [e]) := rfl
      have h2 : joinSep (x :: y :: r) = x ++ Separator :: joinSep (y :: r) := rfl
      rw [h1, h2, ih (by simp)]
      simp

/-- The buffer read forwards is the rendering of the elements, before the
empty buffer is turned into `.` -/
theorem bufOf_reverse (rooted : Bool) : ∀ stk : List Str,
    (bufOf rooted stk).reverse =
      if rooted then Separator :: joinSep stk.reverse else joinSep stk.reverse := by
  intro stk
  induction stk with
  | nil => cases rooted <;> rfl
  | cons e rest ih =>
    cases rest with
    | nil => cases rooted <;> simp [bufOf, joinSep]
    | cons e2 r2 =>
      rw [bufOf_cons_cons, List.reverse_append, List.reverse_cons, ih, List.reverse_reverse,
        List.reverse_cons (a := e), joinSep_concat _ _ (by simp)]
      cases rooted <;> simp

theorem bufOf_eq_nil (rooted : Bool) (stk : List Str) (hg : ∀ e ∈ stk, goodElem e) :
    bufOf rooted stk = [] ↔ rooted = false ∧ stk = [] := by
  cases stk with
  | nil => cases rooted <;> simp [bufOf]
  | cons e rest =>
    have hne : e ≠ [] := (hg e (List.mem_cons_self _ _)).1
    cases rest with
    | nil => simp [bufOf, hne]
    | cons e2 r2 => simp [bufOf_cons_cons]

theorem finish_eq (rooted : Bool) (stk : List Str) (hg : ∀ e ∈ stk, goodElem e) :
    (if bufOf rooted stk = [] then dot else (bufOf rooted stk).reverse) =
      render rooted stk.reverse := by
  by_cases h : bufOf rooted stk = []
  · obtain ⟨hr, hs⟩ := (bufOf_eq_nil rooted stk hg).1 h
    subst hr; subst hs
    rfl
  · rw [if_neg h, bufOf_reverse]
    cases rooted with
    | true => rfl
    | false =>
      have hs : stk ≠ [] := fun hs => h ((bufOf_eq_nil false stk hg).2 ⟨rfl, hs⟩)
      simp [render, hs]

/-- The loop of `filepath.Clean` on the bytes of the path and the fold over
its elements give the same cleaned path. -/
theorem Clean_eq_cleanByElems (path : Str) : Clean path = cleanByElems path := by
  cases path with
  | nil => rfl
  | cons c rest =>
    by_cases hc : c = Separator
    · subst hc
      have h := cleanLoop_eq true ((Separator :: rest).length + 1) rest []
        (by simp only [List.length_cons]; omega) trivial
      have hb : bufOf true [] = [Separator] := rfl
      have hd : ddOf true [] = 1 := rfl
      rw [hb, hd] at h
      have hg := stackOK_good true _
        (foldl_cleanElem_stackOK true (splitSep rest) [] (splitSep_no_sep rest) trivial)
      simp only [Clean, cleanByElems, decide_True, if_true, h, splitSep_cons_sep,
        foldl_cleanElem_nil]
      exact finish_eq true _ hg
    · have h := cleanLoop_eq false ((c :: rest).length + 1) (c :: rest) [] (by simp) trivial
      have hb : bufOf false [] = [] := rfl
      have hd : ddOf false [] = 0 := rfl
      rw [hb, hd] at h
      have hg := stackOK_good false _
        (foldl_cleanElem_stackOK false (splitSep (c :: rest)) [] (splitSep_no_sep _) trivial)
      simp only [Clean, cleanByElems, hc, decide_False, Bool.false_eq_true, if_false, h]
      exact finish_eq false _ hg

/-- The value of `Clean`: the rendering of a well-shaped element list. -/
theorem Clean_form (p : Str) :
    ∃ rooted es, Clean p = render rooted es ∧ stackOK rooted es.reverse := by
  rw [Clean_eq_cleanByElems]
  cases p with
  | nil => exact ⟨false, [], rfl, trivial⟩
  | cons c cs =>
    refine ⟨decide (c = Separator), _, rfl, ?_⟩
    rw [List.reverse_reverse]
    exact foldl_cleanElem_stackOK _ _ _ (splitSep_no_sep _) trivial

theorem joinSep_cons_cons (e e2 : Str) (es : List Str) :
    joinSep (e :: e2 :: es) = e ++ Separator :: joinSep (e2 :: es) := rfl

theorem splitSep_render (rooted : Bool) (es : List Str) (hg : ∀ e ∈ es, goodElem e) :
    splitSep (render rooted es) =
      if rooted then [] :: (if es = [] then [[]] else es)
      else (if es = [] then [dot] else es) := by
  have hs : ∀ e ∈ es, Separator ∉ e := fun e he => (hg e he).2.2
  cases rooted with
  | true =>
    simp only [render, if_true, splitSep_cons_sep]
    by_cases hes : es = []
    · subst hes; rfl
    · simp only [hes, if_false, splitSep_joinSep es hes hs]
  | false =>
    by_cases hes : es = []
    · subst hes; rfl
    · simp [render, hes, splitSep_joinSep es hes hs]

theorem elems_render (rooted : Bool) (es : List Str) (hg : ∀ e ∈ es, goodElem e) :
    elems (render rooted es) = es := by
  have hf : es.filter (fun e => decide (e ≠ [] ∧ e ≠ dot)) = es := by
    apply List.filter_eq_self.2
    intro e he
    simpa using ⟨(hg e he).1, (hg e he).2.1⟩
  unfold elems
  rw [splitSep_render rooted es hg]
  cases rooted with
  | true =>
    by_cases hes : es = []
    · subst hes; rfl
    · simp only [if_true, hes, if_false]
      rw [List.filter_cons]
      simpa using hf
  | false =>
    by_cases hes : es = []
    · subst hes; rfl
    · simpa [hes] using hf

theorem isRooted_render (rooted : Bool) (es : List Str) (hg : ∀ e ∈ es, goodElem e) :
    isRooted (render rooted es) = rooted := by
  cases rooted with
  | true => simp [render, isRooted]
  | false =>
    cases es with
    | nil => decide
    | cons e rest =>
      obtain ⟨hne, _, hsep⟩ := hg e (List.mem_cons_self _ _)
      cases e with
      | nil => exact absurd rfl hne
      | cons c cs =>
        have hc : c ≠ Separator := fun h => hsep (by rw [h]; exact List.mem_cons_self _ _)
        cases rest with
        | nil => simp [render, isRooted, joinSep, hc]
        | cons e2 r2 => simp [render, isRooted, joinSep, hc]

theorem render_ne_nil (rooted : Bool) (es : List Str) (hg : ∀ e ∈ es, goodElem e) :
    render rooted es ≠ [] := by
  cases rooted with
  | true => simp [render]
  | false =>
    cases es with
    | nil => decide
    | cons e rest =>
      have hne := (hg e (List.mem_cons_self _ _)).1
      cases rest with
      | nil => simpa [render, joinSep] using hne
      | cons e2 r2 => simp [render, joinSep, hne]

/-! ## A cleaned path below a cleaned root -/

theorem isRooted_append (a b : Str) (ha : a ≠ []) : isRooted (a ++ b) = isRooted a := by
  cases a with
  | nil => exact absurd rfl ha
  | cons c cs => rfl

/-- The elements of a cleaned path, with a filler for the path without
elements, as `splitSep` shows them after the root. -/
theorem render_extends (r1 r2 : Bool) (es1 es2 : List Str) (rem : Str)
    (hg1 : ∀ e ∈ es1, goodElem e) (hg2 : ∀ e ∈ es2, goodElem e)
    (h : render r1 es1 = render r2 es2 ++ Separator :: rem) :
    r1 = r2 ∧ es2 ≠ [] ∧ ∃ rest, rest ≠ [] ∧ es1 = es2 ++ rest := by
  have hr : r1 = r2 := by
    have h1 := congrArg isRooted h
    rw [isRooted_append _ _ (render_ne_nil r2 es2 hg2), isRooted_render _ _ hg1,
      isRooted_render _ _ hg2] at h1
    exact h1
  subst hr
  have hS := congrArg splitSep h
  rw [splitSep_append_sep, splitSep_render _ _ hg1, splitSep_render _ _ hg2] at hS
  obtain ⟨x, R, hR⟩ := List.exists_cons_of_ne_nil (splitSep_ne_nil rem)
  rw [hR] at hS
  -- the filler stands for no element: it is not one that Clean keeps
  have key : ∀ d : Str, ¬ goodElem d →
      (if es1 = [] then [d] else es1) = (if es2 = [] then [d] else es2) ++ x :: R →
      es2 ≠ [] ∧ ∃ rest, rest ≠ [] ∧ es1 = es2 ++ rest := by
    intro d hd hk
    by_cases h1 : es1 = []
    · exfalso
      have hl := congrArg List.length hk
      by_cases h2 : es2 = []
      · simp [h1, h2] at hl
      · have h3 : 0 < es2.length := List.length_pos.2 h2
        simp only [h1, h2, if_true, if_false, List.length_append, List.length_cons,
          List.length_nil] at hl
        omega
    · by_cases h2 : es2 = []
      · exfalso
        simp only [h1, h2, if_true, if_false] at hk
        exact hd (hg1 d (by rw [hk]; simp))
      · simp only [h1, h2, if_false] at hk
        exact ⟨h2, x :: R, by simp, hk⟩
  refine ⟨rfl, ?_⟩
  cases r1 with
  | true =>
    simp only [if_true, List.cons_append, List.cons.injEq, true_and] at hS
    exact key [] (fun hd => hd.1 rfl) hS
  | false =>
    simp only [Bool.false_eq_true, if_false] at hS
    exact key dot (fun hd => hd.2.1 rfl) hS

theorem entryTarget_form (destDir name : Str) :
    entryTarget destDir name = [] ∨ ∃ p, entryTarget destDir name = Clean p := by
  unfold entryTarget Join
  cases destDir with
  | nil =>
    cases name with
    | nil => left; rfl
    | cons c cs => right; exact ⟨_, rfl⟩
  | cons c cs => right; exact ⟨_, rfl⟩

theorem pathAccepted_split (destDir name : Str) (h : pathAccepted destDir name = true) :
    ∃ rem, entryTarget destDir name = Clean destDir ++ Separator :: rem := by
  unfold pathAccepted HasPrefix at h
  obtain ⟨rem, hrem⟩ := List.isPrefixOf_iff_prefix.1 h
  exact ⟨rem, by rw [← hrem]; simp⟩

/-- Away from the roots that are a chain of `..`, an entry that passes the
path check has its target properly below the cleaned destination root. -/
theorem pathAccepted_descends (destDir name : Str)
    (hroot : (elems (Clean destDir)).getLast? ≠ some dotdot)
    (h : pathAccepted destDir name = true) :
    descends (Clean destDir) (entryTarget destDir name) = true := by
  obtain ⟨rem, hrem⟩ := pathAccepted_split destDir name h
  obtain ⟨r2, es2, hc2, hs2⟩ := Clean_form destDir
  have hg2 : ∀ e ∈ es2, goodElem e := fun e he =>
    stackOK_good r2 _ hs2 e (List.mem_reverse.2 he)
  rcases entryTarget_form destDir name with h0 | ⟨p, hp⟩
  · rw [h0] at hrem
    simp at hrem
  · obtain ⟨r1, es1, hc1, hs1⟩ := Clean_form p
    have hg1 : ∀ e ∈ es1, goodElem e := fun e he =>
      stackOK_good r1 _ hs1 e (List.mem_reverse.2 he)
    rw [hp, hc1, hc2] at hrem
    obtain ⟨hr, hne, rest, hrest, hes⟩ := render_extends r1 r2 es1 es2 rem hg1 hg2 hrem
    subst hr
    rw [hc2, elems_render _ _ hg2] at hroot
    have hnd : ∀ e ∈ rest, e ≠ dotdot := by
      obtain ⟨a, t, hat⟩ := (List.eq_nil_or_concat es2).resolve_left hne
      rw [List.concat_eq_append] at hat
      have ht : t ≠ dotdot := by
        intro ht
        apply hroot
        rw [hat, ht]
        simp
      have hstk : stackOK r1 (rest.reverse ++ t :: a.reverse) := by
        have : es1.reverse = rest.reverse ++ t :: a.reverse := by
          rw [hes, hat]; simp
        rw [← this]; exact hs1
      intro e he
      exact stackOK_above r1 _ _ t hstk ht e (List.mem_reverse.2 he)
    unfold descends
    rw [hp, hc1, hc2, elems_render _ _ hg1, elems_render _ _ hg2, isRooted_render _ _ hg1,
      isRooted_render _ _ hg2, hes]
    have hlen : 0 < rest.length := List.length_pos.2 hrest
    simp only [beq_self_eq_true, Bool.true_and, List.drop_left, Bool.and_eq_true,
      decide_eq_true_eq, List.length_append, List.all_eq_true]
    refine ⟨⟨?_, by omega⟩, ?_⟩
    · exact List.isPrefixOf_iff_prefix.2 (List.prefix_append _ _)
    · intro e he
      exact hnd e he

theorem foldl_resolve_plain (rest : List Str) (hrest : ∀ e ∈ rest, e ≠ dotdot) :
    ∀ loc : List Str,
      rest.foldl (fun loc e => if e = dotdot then loc.dropLast else loc ++ [e]) loc =
        loc ++ rest := by
  induction rest with
  | nil => intro loc; simp
  | cons e rest ih =>
    intro loc
    have he : e ≠ dotdot := hrest e (List.mem_cons_self _ _)
    simp only [List.foldl_cons, he, if_false]
    rw [ih (fun x hx => hrest x (List.mem_cons_of_mem _ hx))]
    simp

/-- A path that descends from a root names, for every working directory, a
location below the location of the root: the location of the root followed
by the further elements of the path. -/
theorem descends_resolve (cwd : List Str) (root target : Str)
    (h : descends root target = true) :
    resolve cwd target = resolve cwd root ++ (elems target).drop (elems root).length ∧
    (elems target).drop (elems root).length ≠ [] ∧
    locatedUnder cwd root target = true := by
  simp only [descends, Bool.and_eq_true, beq_iff_eq, decide_eq_true_eq, List.all_eq_true] at h
  obtain ⟨⟨⟨hr, hpre⟩, hlen⟩, hall⟩ := h
  obtain ⟨rest, hrest⟩ := List.isPrefixOf_iff_prefix.1 hpre
  have hdrop : (elems target).drop (elems root).length = rest := by
    rw [← hrest]; simp
  rw [hdrop] at hall ⊢
  have hnd : ∀ e ∈ rest, e ≠ dotdot := by
    intro e he
    simpa using hall e he
  have hres : resolve cwd target = resolve cwd root ++ rest := by
    unfold resolve
    rw [← hrest, ← hr, List.foldl_append, foldl_resolve_plain rest hnd]
  refine ⟨hres, ?_, ?_⟩
  · intro h0
    rw [← hrest, h0] at hlen
    simp at hlen
  · unfold locatedUnder
    rw [hres]
    exact List.isPrefixOf_iff_prefix.2 (List.prefix_append _ _)

/-! ## Extraction stops at the first entry the path check rejects -/

/-- In the tar loop, an entry that fails the path check ends extraction with
an error, and the file system is the one the entries before it leave. -/
theorem extractTarLoop_rejected {σ : Type} (os : OS σ) (destDir : Str) (trailer : Option Error) :
    ∀ (entries : List TarEntry) (fs : σ) (k : Nat) (hk : k < entries.length),
      pathAccepted destDir (entries.get ⟨k, hk⟩).Name = false →
      (extractTarLoop os destDir trailer fs entries).2 ≠ none ∧
      (extractTarLoop os destDir trailer fs entries).1 =
        (extractTarLoop os destDir none fs (entries.take k)).1 := by
  intro entries
  induction entries with
  | nil => intro fs k hk; simp at hk
  | cons header rest ih =>
    intro fs k hk hrej
    cases k with
    | zero =>
      have h0 : HasPrefix (Join [destDir, header.Name]) (Clean destDir ++ [Separator]) = false := hrej
      simp [extractTarLoop, h0]
    | succ k =>
      have hk2 : k < rest.length := by simpa using hk
      have hrej2 : pathAccepted destDir (rest.get ⟨k, hk2⟩).Name = false := by simpa using hrej
      simp only [List.take_succ_cons, extractTarLoop]
      by_cases hc : HasPrefix (Join [destDir, header.Name]) (Clean destDir ++ [Separator]) = true
      · simp only [hc, Bool.not_true, Bool.false_eq_true, if_false]
        by_cases hd : header.Typeflag = TypeDir
        · simp only [hd, if_true]
          rcases hm : os.MkdirAll fs (Join [destDir, header.Name]) (FileMode header.Mode) with
            ⟨fs1, _ | e⟩
          · exact ih fs1 k hk2 hrej2
          · simp
        · simp only [hd, if_false]
          by_cases hr : header.Typeflag = TypeReg
          · simp only [hr, if_true]
            rcases hm : extractFile os fs header.Data (Join [destDir, header.Name])
              (FileMode header.Mode) with ⟨fs1, _ | e⟩
            · exact ih fs1 k hk2 hrej2
            · simp
          · simp only [hr, if_false]
            exact ih fs k hk2 hrej2
      · simp [hc]

/-- In the zip loop, a file that fails the path check ends extraction with
an error, and the file system is the one the files before it leave. -/
theorem extractZipLoop_rejected {σ : Type} (os : OS σ) (destDir : Str) :
    ∀ (files : List ZipEntry) (fs : σ) (k : Nat) (hk : k < files.length),
      pathAccepted destDir (files.get ⟨k, hk⟩).Name = false →
      (extractZipLoop os destDir fs files).2 ≠ none ∧
      (extractZipLoop os destDir fs files).1 =
        (extractZipLoop os destDir fs (files.take k)).1 := by
  intro files
  induction files with
  | nil => intro fs k hk; simp at hk
  | cons file rest ih =>
    intro fs k hk hrej
    cases k with
    | zero =>
      have h0 : HasPrefix (Join [destDir, file.Name]) (Clean destDir ++ [Separator]) = false := hrej
      simp [extractZipLoop, h0]
    | succ k =>
      have hk2 : k < rest.length := by simpa using hk
      have hrej2 : pathAccepted destDir (rest.get ⟨k, hk2⟩).Name = false := by simpa using hrej
      simp only [List.take_succ_cons, extractZipLoop]
      by_cases hc : HasPrefix (Join [destDir, file.Name]) (Clean destDir ++ [Separator]) = true
      · simp only [hc, Bool.not_true, Bool.false_eq_true, if_false]
        by_cases hd : IsDir file.Mode = true
        · simp only [hd, if_true]
          exact ih _ k hk2 hrej2
        · simp only [hd, if_false]
          cases ho : file.Open with
          | error e => simp
          | ok fileReader =>
            simp only []
            rcases hm : extractFile os fs fileReader (Join [destDir, file.Name]) file.Mode with
              ⟨fs1, _ | e⟩
            · exact ih fs1 k hk2 hrej2
            · simp
      · simp [hc]

/-- An entry whose target is not properly below the cleaned destination root
fails the path check, away from the roots that are a chain of `..`. -/
theorem escaping_rejected (destDir name : Str)
    (hroot : (elems (Clean destDir)).getLast? ≠ some dotdot)
    (hesc : descends (Clean destDir) (entryTarget destDir name) = false) :
    pathAccepted destDir name = false := by
  cases h : pathAccepted destDir name with
  | false => rfl
  | true =>
    rw [pathAccepted_descends destDir name hroot h] at hesc
    exact absurd hesc (by decide)

/-- The archive with the tar stream cut before entry `k` (and ending in
`io.EOF`) behind the reader of `format`. -/
theorem ExtractArchive_tar_escaping {σ : Type} (os : OS σ) (fs : σ) (archive : Archive)
    (destDir : Str) (format : ArchiveFormat) (stream : TarStream) (k : Nat)
    (hfmt : format ≠ FormatZip)
    (hopen : archive.tar (extractReader format) = .ok stream)
    (hk : k < stream.entries.length)
    (hroot : (elems (Clean destDir)).getLast? ≠ some dotdot)
    (hesc : descends (Clean destDir)
      (entryTarget destDir (stream.entries.get ⟨k, hk⟩).Name) = false) :
    (ExtractArchive os fs archive destDir format).2 ≠ none ∧
    (ExtractArchive os fs archive destDir format).1 =
      (ExtractArchive os fs (tarArchive (stream.entries.take k)) destDir format).1 := by
  have hrej := escaping_rejected destDir _ hroot hesc
  unfold ExtractArchive
  rcases hm : os.MkdirAll fs destDir 0o755 with ⟨fs1, _ | e⟩
  · simp only [hfmt, if_false, extractTar, hopen, tarArchive]
    exact extractTarLoop_rejected os destDir stream.trailer stream.entries fs1 k hk hrej
  · simp

/-- The same for a zip archive. -/
theorem ExtractArchive_zip_escaping {σ : Type} (os : OS σ) (fs : σ) (archive : Archive)
    (destDir : Str) (files : List ZipEntry) (k : Nat)
    (hopen : archive.zip = .ok files)
    (hk : k < files.length)
    (hroot : (elems (Clean destDir)).getLast? ≠ some dotdot)
    (hesc : descends (Clean destDir)
      (entryTarget destDir (files.get ⟨k, hk⟩).Name) = false) :
    (ExtractArchive os fs archive destDir FormatZip).2 ≠ none ∧
    (ExtractArchive os fs archive destDir FormatZip).1 =
      (ExtractArchive os fs (zipArchive (files.take k)) destDir FormatZip).1 := by
  have hrej := escaping_rejected destDir _ hroot hesc
  unfold ExtractArchive
  rcases hm : os.MkdirAll fs destDir 0o755 with ⟨fs1, _ | e⟩
  · simp only [if_true, extractZip, hopen, zipArchive]
    exact extractZipLoop_rejected os destDir files fs1 k hk hrej
  · simp

/-- An instance: under the root `/tmp/out` the entry `a/../b/c` is accepted
and its target descends from the root. -/
theorem pathAccepted_descends_example :
    descends (Clean (str "/tmp/out")) (entryTarget (str "/tmp/out") (str "a/../b/c")) = true :=
  pathAccepted_descends (str "/tmp/out") (str "a/../b/c") (by decide) (by decide)

/-- An instance: extracting the entries `ok.txt`, `../../etc/x`, `later` into
`/tmp/out` stops with an error at the second entry and leaves what the first
entry alone leaves. -/
theorem ExtractArchive_tar_escaping_example :
    (ExtractArchive memOS []
      (tarArchive [regEntry (str "ok.txt"), regEntry (str "../../etc/x"),
        regEntry (str "later")]) (str "/tmp/out") FormatTarGZ).2 ≠ none ∧
    (ExtractArchive memOS []
      (tarArchive [regEntry (str "ok.txt"), regEntry (str "../../etc/x"),
        regEntry (str "later")]) (str "/tmp/out") FormatTarGZ).1 =
    (ExtractArchive memOS [] (tarArchive [regEntry (str "ok.txt")]) (str "/tmp/out")
      FormatTarGZ).1 :=
  ExtractArchive_tar_escaping memOS []
    (tarArchive [regEntry (str "ok.txt"), regEntry (str "../../etc/x"), regEntry (str "later")])
    (str "/tmp/out") FormatTarGZ
    { entries := [regEntry (str "ok.txt"), regEntry (str "../../etc/x"), regEntry (str "later")],
      trailer := none }
    1 (by decide) rfl (by decide) (by decide) (by decide)

/-! ## Absolute entry names -/

theorem foldl_cleanElem_nil_elem (rooted : Bool) (a b : List Str) (stk : List Str) :
    (a ++ [] :: b).foldl (cleanElem rooted) stk = (a ++ b).foldl (cleanElem rooted) stk := by
  simp [List.foldl_append, cleanElem]

/-- A doubled separator after the root does not change the cleaned path. -/
theorem Clean_double_sep (d n : Str) (hd : d ≠ []) :
    Clean (d ++ Separator :: Separator :: n) = Clean (d ++ Separator :: n) := by
  cases d with
  | nil => exact absurd rfl hd
  | cons c cs =>
    have h1 : splitSep (c :: cs ++ Separator :: Separator :: n) =
        splitSep (c :: cs) ++ [] :: splitSep n := by
      rw [splitSep_append_sep, splitSep_cons_sep]
    have h2 : splitSep (c :: cs ++ Separator :: n) = splitSep (c :: cs) ++ splitSep n :=
      splitSep_append_sep _ _
    rw [Clean_eq_cleanByElems, Clean_eq_cleanByElems]
    show render _ (List.foldl _ [] (splitSep (c :: cs ++ Separator :: Separator :: n))).reverse =
      render _ (List.foldl _ [] (splitSep (c :: cs ++ Separator :: n))).reverse
    rw [h1, h2, foldl_cleanElem_nil_elem]

theorem entryTarget_cons (c : Nat) (cs name : Str) :
    entryTarget (c :: cs) name = Clean (c :: cs ++ Separator :: name) := by
  simp [entryTarget, Join, joinSep]

/-- Under a destination root whose cleaned form has no element (`/`, `.`, the
empty root) no entry passes the path check. -/
theorem pathAccepted_bare_root (destDir name : Str) (hroot : elems (Clean destDir) = []) :
    pathAccepted destDir name = false := by
  cases h : pathAccepted destDir name with
  | false => rfl
  | true =>
    exfalso
    obtain ⟨rem, hrem⟩ := pathAccepted_split destDir name h
    obtain ⟨r2, es2, hc2, hs2⟩ := Clean_form destDir
    have hg2 : ∀ e ∈ es2, goodElem e := fun e he =>
      stackOK_good r2 _ hs2 e (List.mem_reverse.2 he)
    rcases entryTarget_form destDir name with h0 | ⟨p, hp⟩
    · rw [h0] at hrem; simp at hrem
    · obtain ⟨r1, es1, hc1, hs1⟩ := Clean_form p
      have hg1 : ∀ e ∈ es1, goodElem e := fun e he =>
        stackOK_good r1 _ hs1 e (List.mem_reverse.2 he)
      rw [hc2, elems_render _ _ hg2] at hroot
      rw [hp, hc1, hc2] at hrem
      exact (render_extends r1 r2 es1 es2 rem hg1 hg2 hrem).2.1 hroot

/-- With the empty destination root no entry passes the path check. -/
theorem pathAccepted_nil (name : Str) : pathAccepted [] name = false :=
  pathAccepted_bare_root [] name (by decide)

/-- An entry whose target is the cleaned destination root itself fails the
path check. -/
theorem pathAccepted_at_root (destDir name : Str)
    (h : entryTarget destDir name = Clean destDir) : pathAccepted destDir name = false := by
  cases hp : pathAccepted destDir name with
  | false => rfl
  | true =>
    exfalso
    obtain ⟨rem, hrem⟩ := pathAccepted_split destDir name hp
    rw [h] at hrem
    have := congrArg List.length hrem
    simp at this

/-! ## Format detection by extension -/

/-- Two strings neither of which ends the other cannot both end the same
string. -/
theorem suffix_excl (l a b : Str) (hab : ¬ a <:+ b) (hba : ¬ b <:+ a) :
    ¬ (HasSuffix l a = true ∧ HasSuffix l b = true) := by
  rintro ⟨ha, hb⟩
  have ha2 : a <:+ l := List.isSuffixOf_iff_suffix.1 ha
  have hb2 : b <:+ l := List.isSuffixOf_iff_suffix.1 hb
  rcases List.suffix_or_suffix_of_suffix ha2 hb2 with h | h
  · exact hab h
  · exact hba h

/-- No two of the five known suffixes end the same string. -/
theorem detect_by_cases (l : Str) :
    let b1 := HasSuffix l (str ".tar.zst")
    let b2 := HasSuffix l (str ".tar.lz4")
    let b3 := HasSuffix l (str ".tar.xz")
    let b4 := HasSuffix l (str ".tar.gz")
    let b5 := HasSuffix l (str ".zip")
    ¬ (b1 = true ∧ b2 = true) ∧ ¬ (b1 = true ∧ b3 = true) ∧ ¬ (b1 = true ∧ b4 = true) ∧
    ¬ (b1 = true ∧ b5 = true) ∧ ¬ (b2 = true ∧ b3 = true) ∧ ¬ (b2 = true ∧ b4 = true) ∧
    ¬ (b2 = true ∧ b5 = true) ∧ ¬ (b3 = true ∧ b4 = true) ∧ ¬ (b3 = true ∧ b5 = true) ∧
    ¬ (b4 = true ∧ b5 = true) := by
  refine ⟨?_, ?_, ?_, ?_, ?_, ?_, ?_, ?_, ?_, ?_⟩ <;>
    exact suffix_excl l _ _ (by decide) (by decide)

/-! ## The inclusion filter -/

theorem includeLoop_eq_true (path : Str) (includeFiles : List Str) :
    includeLoop path includeFiles = true ↔
      ∀ pattern ∈ includeFiles, globMatches pattern path = false := by
  induction includeFiles with
  | nil => simp [includeLoop]
  | cons pattern rest ih =>
    unfold includeLoop
    by_cases h : globMatches pattern path = true
    · simp [h]
    · have hf : globMatches pattern path = false := by simpa using h
      simp [hf, ih]

theorem shouldExclude_eq_true (path : Str) (includeFiles excludeFiles : List Str) :
    shouldExclude path includeFiles excludeFiles = true ↔
      (∃ pattern ∈ excludeFiles, globMatches pattern path = true) ∨
      (includeFiles ≠ [] ∧ ∀ pattern ∈ includeFiles, globMatches pattern path = false) := by
  induction excludeFiles with
  | nil =>
    unfold shouldExclude
    cases includeFiles with
    | nil => simp
    | cons p ps => simp [includeLoop_eq_true]
  | cons pattern rest ih =>
    unfold shouldExclude
    by_cases h : globMatches pattern path = true
    · simp [h]
    · have hf : globMatches pattern path = false := by simpa using h
      simp [hf, ih]

/-! ## The names written by the walk -/

mutual
/-- The relative paths the walk yields at a node are the path of the node
or contain a separator. -/
theorem walkNode_rel (includeFiles excludeFiles : List Str) (rel : Str) :
    ∀ (node : DirTree), ∀ p ∈ walkNode includeFiles excludeFiles rel node,
      p.1 = rel ∨ Separator ∈ p.1
  | DirTree.file perm data => by
    intro p hp
    unfold walkNode at hp
    split at hp
    · cases hp
    · left
      rw [List.mem_singleton.1 hp]
  | DirTree.dir perm entries => by
    intro p hp
    unfold walkNode at hp
    split at hp
    · cases hp
    · rcases List.mem_cons.1 hp with h | h
      · left; rw [h]
      · right
        have := walkEntries_rel includeFiles excludeFiles (some rel) entries p h
        simpa [DirEntries.names] using this.resolve_left (by simp)
/-- The relative paths the walk yields in a directory: below the source
root, a name of the directory or a path with a separator; below any other
directory, a path with a separator. -/
theorem walkEntries_rel (includeFiles excludeFiles : List Str) (dirRel : Option Str) :
    ∀ (entries : DirEntries), ∀ p ∈ walkEntries includeFiles excludeFiles dirRel entries,
      (dirRel = none ∧ p.1 ∈ entries.names) ∨ Separator ∈ p.1
  | DirEntries.nil => by
    intro p hp
    unfold walkEntries at hp
    cases hp
  | DirEntries.cons name node rest => by
    intro p hp
    unfold walkEntries at hp
    rcases List.mem_append.1 hp with h | h
    · rcases walkNode_rel includeFiles excludeFiles (relPath dirRel name) node p h with h1 | h1
      · cases dirRel with
        | none =>
          left
          exact ⟨rfl, by rw [h1]; simp [relPath, DirEntries.names]⟩
        | some d =>
          right
          rw [h1]
          simp [relPath]
      · right; exact h1
    · rcases walkEntries_rel includeFiles excludeFiles dirRel rest p h with ⟨h1, h2⟩ | h1
      · left
        exact ⟨h1, by simp [DirEntries.names, h2]⟩
      · right; exact h1
end

/-- A relative path of the walk from the source root without a separator is
a name at the root. -/
theorem walkSource_rel (includeFiles excludeFiles : List Str) (source : DirTree) :
    ∀ p ∈ walkSource includeFiles excludeFiles source,
      p.1 ∈ rootNames source ∨ Separator ∈ p.1 := by
  intro p hp
  cases source with
  | file perm data => simp [walkSource] at hp
  | dir perm entries =>
    rcases walkEntries_rel includeFiles excludeFiles none entries p hp with ⟨_, h⟩ | h
    · left; exact h
    · right; exact h

theorem addFileToTar_name (node : DirTree) (archivePath : Str) :
    (addFileToTar node archivePath).Name = archivePath := by
  cases node <;> rfl

theorem addFileToZip_name (node : DirTree) (archivePath : Str) :
    (addFileToZip node archivePath).Name = archivePath ∨
    (addFileToZip node archivePath).Name = archivePath ++ [Separator] := by
  cases node
  · left; rfl
  · right; rfl

/-- After the first entry, a container holds the reserved name only for an
entry of that name at the source root. -/
theorem createArchive_tail_names (source : DirTree) (format : ArchiveFormat)
    (includeFiles excludeFiles : List Str) (metadataData : Str)
    (h : metadataName ∈ (createArchive source format includeFiles excludeFiles
      metadataData).names.tail) :
    metadataName ∈ rootNames source := by
  have hsep : Separator ∉ metadataName := by decide
  unfold createArchive at h
  split at h
  · simp only [createZipArchive, Container.names, List.map_cons, List.tail_cons, List.map_map,
      List.mem_map, Function.comp] at h
    obtain ⟨p, hp, hn⟩ := h
    rcases addFileToZip_name p.2 p.1 with h1 | h1
    · rw [h1] at hn
      rcases walkSource_rel includeFiles excludeFiles source p hp with h2 | h2
      · rw [← hn]; exact h2
      · rw [hn] at h2; exact absurd h2 hsep
    · rw [h1] at hn
      exact absurd (by rw [← hn]; simp) hsep
  · simp only [createTarArchive, Container.names, List.map_cons, List.tail_cons, List.map_map,
      List.mem_map, Function.comp] at h
    obtain ⟨p, hp, hn⟩ := h
    rw [addFileToTar_name] at hn
    rcases walkSource_rel includeFiles excludeFiles source p hp with h2 | h2
    · rw [← hn]; exact h2
    · rw [hn] at h2; exact absurd h2 hsep

/-! ## The bounds of the loops of `Match` -/

theorem decodeCont_size_pos (s0 sz lo hi : Nat) (t : Str) :
    1 ≤ (decodeCont s0 sz lo hi t).2 := by
  unfold decodeCont
  repeat' split
  all_goals simp

theorem DecodeRuneInString_size_pos (s : Str) (hs : s ≠ []) : 1 ≤ (DecodeRuneInString s).2 := by
  cases s with
  | nil => exact absurd rfl hs
  | cons s0 t =>
    unfold DecodeRuneInString
    simp only []
    split
    · exact Nat.le_refl 1
    · split
      · exact Nat.le_refl 1
      · split
        · exact Nat.le_refl 1
        · exact decodeCont_size_pos _ _ _ _ _

theorem getEsc_length (chunk : Str) (r : Nat) (nchunk : Str)
    (h : getEsc chunk = .ok (r, nchunk)) : nchunk.length < chunk.length := by
  cases chunk with
  | nil => simp [getEsc] at h
  | cons c rest =>
    simp only [getEsc] at h
    by_cases h1 : c = 45 ∨ c = 93
    · simp [h1] at h
    · simp only [h1, if_false] at h
      have hlen : (if c = 92 then rest else c :: rest).length ≤ (c :: rest).length := by
        split <;> simp
      generalize (if c = 92 then rest else c :: rest) = chunk1 at h hlen
      by_cases h2 : chunk1 = []
      · simp [h2] at h
      · simp only [h2, if_false] at h
        have hpos := DecodeRuneInString_size_pos _ h2
        have hpos2 : 0 < chunk1.length := List.length_pos.2 h2
        split at h
        · cases h
        · split at h
          · cases h
          · injection h with h
            injection h with _ h3
            rw [← h3]
            simp only [List.length_drop]
            omega

theorem classRange_length (lo : Nat) (chunk1 : Str) (hi : Nat) (chunk2 : Str)
    (h : (if chunk1.head? = some 45 then getEsc chunk1.tail else .ok (lo, chunk1)) =
      .ok (hi, chunk2)) : chunk2.length ≤ chunk1.length := by
  split at h
  · have := getEsc_length _ _ _ h
    simp only [List.length_tail] at this
    omega
  · injection h with h
    injection h with _ h2
    rw [h2]

theorem classLoop_length (r : Nat) :
    ∀ (fuel : Nat) (chunk : Str) (mtch : Bool) (nrange : Nat) (chunk3 : Str) (b : Bool),
      classLoop r fuel chunk mtch nrange = .ok (chunk3, b) → chunk3.length < chunk.length := by
  intro fuel
  induction fuel with
  | zero => intro chunk mtch nrange chunk3 b h; simp [classLoop] at h
  | succ fuel ih =>
    intro chunk mtch nrange chunk3 b h
    unfold classLoop at h
    split at h
    · rename_i hexit
      injection h with h
      injection h with h1 _
      rw [← h1]
      cases chunk with
      | nil => simp at hexit
      | cons c tl => simp
    · cases hg : getEsc chunk with
      | error e => simp [hg] at h
      | ok p =>
        obtain ⟨lo, chunk1⟩ := p
        have hl1 := getEsc_length _ _ _ hg
        simp only [hg] at h
        cases hr : (if chunk1.head? = some 45 then getEsc chunk1.tail
            else Except.ok (lo, chunk1)) with
        | error e => simp [hr] at h
        | ok q =>
          obtain ⟨hi, chunk2⟩ := q
          have hl2 := classRange_length _ _ _ _ hr
          simp only [hr] at h
          have := ih _ _ _ _ _ h
          omega

/-- The result of the loop over the ranges of a character class does not
depend on the bound, once the bound exceeds the length of the chunk. -/
theorem classLoop_fuel (r : Nat) :
    ∀ (f1 f2 : Nat) (chunk : Str) (mtch : Bool) (nrange : Nat),
      chunk.length < f1 → chunk.length < f2 →
      classLoop r f1 chunk mtch nrange = classLoop r f2 chunk mtch nrange := by
  intro f1
  induction f1 with
  | zero => intro f2 chunk mtch nrange h; exact absurd h (Nat.not_lt_zero _)
  | succ f1 ih =>
    intro f2 chunk mtch nrange h1 h2
    cases f2 with
    | zero => exact absurd h2 (Nat.not_lt_zero _)
    | succ f2 =>
      unfold classLoop
      split
      · rfl
      · cases hg : getEsc chunk with
        | error e => rfl
        | ok p =>
          obtain ⟨lo, chunk1⟩ := p
          have hl1 := getEsc_length _ _ _ hg
          simp only []
          cases hr : (if chunk1.head? = some 45 then getEsc chunk1.tail
              else Except.ok (lo, chunk1)) with
          | error e => rfl
          | ok q =>
            obtain ⟨hi, chunk2⟩ := q
            have hl2 := classRange_length _ _ _ _ hr
            simp only []
            exact ih f2 chunk2 _ _ (by omega) (by omega)

/-- The result of the loop of `matchChunk` does not depend on the bound,
once the bound exceeds the length of the chunk. -/
theorem matchChunkLoop_fuel :
    ∀ (f1 f2 : Nat) (failed : Bool) (chunk s : Str),
      chunk.length < f1 → chunk.length < f2 →
      matchChunkLoop f1 failed chunk s = matchChunkLoop f2 failed chunk s := by
  intro f1
  induction f1 with
  | zero => intro f2 failed chunk s h; exact absurd h (Nat.not_lt_zero _)
  | succ f1 ih =>
    intro f2 failed chunk s h1 h2
    cases f2 with
    | zero => exact absurd h2 (Nat.not_lt_zero _)
    | succ f2 =>
      cases chunk with
      | nil => simp [matchChunkLoop]
      | cons c chunk1 =>
        have hc1 : chunk1.length < f1 := by simpa using h1
        have hc2 : chunk1.length < f2 := by simpa using h2
        unfold matchChunkLoop
        simp only []
        split
        · -- a character class
          have hl : (if (decide (chunk1.head? = some 94)) = true then chunk1.tail
              else chunk1).length ≤ chunk1.length := by
            split
            · simp
            · exact Nat.le_refl _
          generalize (if (decide (chunk1.head? = some 94)) = true then chunk1.tail
              else chunk1) = chunk2 at hl
          cases hcl : classLoop (if (failed || s.isEmpty) = true then 0
              else (DecodeRuneInString s).1) (chunk2.length + 1) chunk2 false 0 with
          | error e => rfl
          | ok q =>
            obtain ⟨chunk3, mtch⟩ := q
            have hl3 := classLoop_length _ _ _ _ _ _ _ hcl
            simp only []
            exact ih f2 _ chunk3 _ (by omega) (by omega)
        · split
          · split
            · exact ih f2 _ chunk1 _ hc1 hc2
            · exact ih f2 _ chunk1 _ hc1 hc2
          · split
            · rfl
            · rename_i b chunk2 hlit
              have hl : chunk2.length ≤ chunk1.length := by
                split at hlit
                · split at hlit
                  · cases hlit
                  · injection hlit with hlit
                    injection hlit with _ h3
                    rw [← h3]; simp
                · injection hlit with hlit
                  injection hlit with _ h3
                  rw [← h3]
              split
              · exact ih f2 _ chunk2 _ (by omega) (by omega)
              · exact ih f2 _ chunk2 _ (by omega) (by omega)

theorem scanLen_pos (c : Nat) (tl : Str) (hc : c ≠ 42) : 1 ≤ scanLen false (c :: tl) := by
  unfold scanLen
  split
  · split <;> omega
  · split
    · omega
    · split
      · omega
      · omega

/-- The rest of a non-empty pattern after its first chunk is shorter than
the pattern. -/
theorem scanChunk_length (pattern : Str) (hp : pattern ≠ []) :
    (scanChunk pattern).2.2.length < pattern.length := by
  cases pattern with
  | nil => exact absurd rfl hp
  | cons c tl =>
    simp only [scanChunk, List.length_drop]
    by_cases hc : c = 42
    · have h1 : (List.dropWhile (fun c => decide (c = 42)) (c :: tl)).length ≤ tl.length := by
        simp only [List.dropWhile, hc, decide_True]
        exact (List.dropWhile_suffix _).length_le
      simp only [List.length_cons]
      omega
    · have h1 : List.dropWhile (fun c => decide (c = 42)) (c :: tl) = c :: tl := by
        simp [List.dropWhile, hc]
      rw [h1]
      have := scanLen_pos c tl hc
      simp only [List.length_cons]
      omega

/-- The result of the loop of `Match` does not depend on the bound, once the
bound exceeds the length of the pattern. -/
theorem matchLoop_fuel :
    ∀ (f1 f2 : Nat) (pattern name : Str), pattern.length < f1 → pattern.length < f2 →
      matchLoop f1 pattern name = matchLoop f2 pattern name := by
  intro f1
  induction f1 with
  | zero => intro f2 pattern name h; exact absurd h (Nat.not_lt_zero _)
  | succ f1 ih =>
    intro f2 pattern name h1 h2
    cases f2 with
    | zero => exact absurd h2 (Nat.not_lt_zero _)
    | succ f2 =>
      unfold matchLoop
      by_cases hp : pattern = []
      · simp [hp]
      · have hlen := scanChunk_length pattern hp
        simp only [hp, if_false]
        rcases hsc : scanChunk pattern with ⟨star, chunk, rest⟩
        rw [hsc] at hlen
        simp only [] at hlen ⊢
        have hr1 : rest.length < f1 := by omega
        have hr2 : rest.length < f2 := by omega
        split
        · rfl
        · rcases hmc : matchChunk chunk name with ⟨t, ok, err⟩
          simp only []
          split
          · exact ih f2 rest t hr1 hr2
          · split
            · rfl
            · split
              · cases starLoop chunk (decide (rest = [])) name with
                | found t2 => exact ih f2 rest t2 hr1 hr2
                | bad e => rfl
                | noMatch => rfl
              · rfl

/-- The value of `Match` is that of its loop under every bound above the
length of the pattern: the loop never runs out of rounds. -/
theorem Match_fuel (fuel : Nat) (pattern name : Str) (h : pattern.length < fuel) :
    matchLoop fuel pattern name = Match pattern name :=
  matchLoop_fuel fuel (pattern.length + 1) pattern name h (Nat.lt_succ_self _)

/-! ## Entries that name the destination root -/

/-- The entry `.` has the cleaned destination root as its target. -/
theorem entryTarget_dot (destDir : Str) : entryTarget destDir dot = Clean destDir := by
  cases destDir with
  | nil => decide
  | cons c cs =>
    rw [entryTarget_cons, Clean_eq_cleanByElems, Clean_eq_cleanByElems]
    have h1 : splitSep (c :: cs ++ Separator :: dot) = splitSep (c :: cs) ++ [dot] := by
      rw [splitSep_append_sep]; rfl
    show render _ (List.foldl _ [] (splitSep (c :: cs ++ Separator :: dot))).reverse =
      render _ (List.foldl _ [] (splitSep (c :: cs))).reverse
    rw [h1, List.foldl_append]
    simp [cleanElem]

/-! ## Malformed patterns -/

/-- When the loop of `Match` returns an error, it returns `false` with it. -/
theorem matchLoop_error_false :
    ∀ (fuel : Nat) (pattern name : Str),
      (matchLoop fuel pattern name).2 ≠ none → (matchLoop fuel pattern name).1 = false := by
  intro fuel
  induction fuel with
  | zero => intro pattern name _; rfl
  | succ fuel ih =>
    intro pattern name
    unfold matchLoop
    split
    · intro h; exact absurd rfl h
    · rcases scanChunk pattern with ⟨star, chunk, rest⟩
      simp only []
      split
      · intro h; exact absurd rfl h
      · rcases matchChunk chunk name with ⟨t, ok, err⟩
        simp only []
        split
        · exact ih rest t
        · split
          · intro _; rfl
          · split
            · cases starLoop chunk (decide (rest = [])) name with
              | found t2 => exact ih rest t2
              | bad e => intro _; rfl
              | noMatch => intro _; rfl
            · intro _; rfl

/-- A pattern on which `Match` reports an error does not match: the error is
all that `shouldExclude` drops. -/
theorem globMatches_of_error (pattern path : Str) (h : (Match pattern path).2 ≠ none) :
    globMatches pattern path = false :=
  matchLoop_error_false _ pattern path h

/-- The pattern `[` is malformed for every path. -/
theorem Match_open_bracket (path : Str) :
    Match (str "[") path = (false, some Error.badPattern) := by
  rfl

/-! ## The walk with pruning and the filter over the whole tree -/

mutual
/-- Every entry listed at or below a node has the ancestors of the node
among its ancestors. -/
theorem listNode_ancestors (ancestors : List Str) (rel : Str) :
    ∀ (node : DirTree), ∀ e ∈ listNode ancestors rel node, ∀ a ∈ ancestors, a ∈ e.2.1
  | DirTree.file perm data => by
    intro e he a ha
    unfold listNode at he
    rw [List.mem_singleton.1 he]
    exact ha
  | DirTree.dir perm entries => by
    intro e he a ha
    unfold listNode at he
    rcases List.mem_cons.1 he with h | h
    · rw [h]; exact ha
    · exact listEntries_ancestors (rel :: ancestors) (some rel) entries e h a
        (List.mem_cons_of_mem _ ha)
/-- Every entry listed below a directory has the ancestors given for the
directory among its ancestors. -/
theorem listEntries_ancestors (ancestors : List Str) (dirRel : Option Str) :
    ∀ (entries : DirEntries), ∀ e ∈ listEntries ancestors dirRel entries,
      ∀ a ∈ ancestors, a ∈ e.2.1
  | DirEntries.nil => by
    intro e he
    unfold listEntries at he
    cases he
  | DirEntries.cons name node rest => by
    intro e he a ha
    unfold listEntries at he
    rcases List.mem_append.1 he with h | h
    · exact listNode_ancestors ancestors (relPath dirRel name) node e h a ha
    · exact listEntries_ancestors ancestors dirRel rest e h a ha
end

/-- Below an excluded directory the filter keeps nothing. -/
theorem filter_below_excluded (includeFiles excludeFiles : List Str) (ancestors : List Str)
    (dirRel : Option Str) (entries : DirEntries)
    (h : ∃ a ∈ ancestors, shouldExclude a includeFiles excludeFiles = true) :
    (listEntries ancestors dirRel entries).filter (fun e =>
      !shouldExclude e.1 includeFiles excludeFiles &&
      e.2.1.all (fun a => !shouldExclude a includeFiles excludeFiles)) = [] := by
  obtain ⟨a, ha, hex⟩ := h
  rw [List.filter_eq_nil_iff]
  intro e he
  have hmem := listEntries_ancestors ancestors dirRel entries e he a ha
  simp only [Bool.and_eq_true, Bool.not_eq_true', List.all_eq_true, not_and]
  intro _ hall
  have := hall a hmem
  rw [hex] at this
  exact absurd this (by decide)

mutual
/-- At a node all of whose ancestors are kept, the walk with pruning yields
the entries that the filter keeps among all entries at and below the node. -/
theorem walkNode_eq_filter (includeFiles excludeFiles : List Str) (ancestors : List Str)
    (hanc : ∀ a ∈ ancestors, shouldExclude a includeFiles excludeFiles = false) (rel : Str) :
    ∀ (node : DirTree),
      walkNode includeFiles excludeFiles rel node =
        ((listNode ancestors rel node).filter (fun e =>
          !shouldExclude e.1 includeFiles excludeFiles &&
          e.2.1.all (fun a => !shouldExclude a includeFiles excludeFiles))).map
          (fun e => (e.1, e.2.2))
  | DirTree.file perm data => by
    have hall : ancestors.all (fun a => !shouldExclude a includeFiles excludeFiles) = true := by
      rw [List.all_eq_true]
      intro a ha
      rw [hanc a ha]; rfl
    unfold walkNode listNode
    cases hs : shouldExclude rel includeFiles excludeFiles with
    | true => simp [hs]
    | false => simp [hs, hall]
  | DirTree.dir perm entries => by
    have hall : ancestors.all (fun a => !shouldExclude a includeFiles excludeFiles) = true := by
      rw [List.all_eq_true]
      intro a ha
      rw [hanc a ha]; rfl
    unfold walkNode listNode
    cases hs : shouldExclude rel includeFiles excludeFiles with
    | true =>
      have hbelow := filter_below_excluded includeFiles excludeFiles (rel :: ancestors)
        (some rel) entries ⟨rel, List.mem_cons_self _ _, hs⟩
      simp only [if_true, List.filter_cons, hs, Bool.not_true, Bool.false_and,
        Bool.false_eq_true, if_false, hbelow, List.map_nil]
    | false =>
      have hanc2 : ∀ a ∈ rel :: ancestors,
          shouldExclude a includeFiles excludeFiles = false := by
        intro a ha
        rcases List.mem_cons.1 ha with h | h
        · rw [h]; exact hs
        · exact hanc a h
      have ih := walkEntries_eq_filter includeFiles excludeFiles (rel :: ancestors) hanc2
        (some rel) entries
      simp only [Bool.false_eq_true, if_false, List.filter_cons, hs, Bool.not_false,
        Bool.true_and, hall, if_true, List.map_cons, ih]
/-- Below a directory all of whose ancestors are kept, the walk with pruning
yields the entries that the filter keeps. -/
theorem walkEntries_eq_filter (includeFiles excludeFiles : List Str) (ancestors : List Str)
    (hanc : ∀ a ∈ ancestors, shouldExclude a includeFiles excludeFiles = false)
    (dirRel : Option Str) :
    ∀ (entries : DirEntries),
      walkEntries includeFiles excludeFiles dirRel entries =
        ((listEntries ancestors dirRel entries).filter (fun e =>
          !shouldExclude e.1 includeFiles excludeFiles &&
          e.2.1.all (fun a => !shouldExclude a includeFiles excludeFiles))).map
          (fun e => (e.1, e.2.2))
  | DirEntries.nil => by
    unfold walkEntries listEntries
    rfl
  | DirEntries.cons name node rest => by
    unfold walkEntries listEntries
    rw [walkNode_eq_filter includeFiles excludeFiles ancestors hanc (relPath dirRel name) node,
      walkEntries_eq_filter includeFiles excludeFiles ancestors hanc dirRel rest,
      List.filter_append, List.map_append]
end

/-- The walk from the source root yields the entries that the filter keeps
among all entries of the tree. -/
theorem walkSource_eq_filter (includeFiles excludeFiles : List Str) (source : DirTree) :
    walkSource includeFiles excludeFiles source =
      ((listSource source).filter (fun e =>
        !shouldExclude e.1 includeFiles excludeFiles &&
        e.2.1.all (fun a => !shouldExclude a includeFiles excludeFiles))).map
        (fun e => (e.1, e.2.2)) := by
  cases source with
  | file perm data => rfl
  | dir perm entries =>
    exact walkEntries_eq_filter includeFiles excludeFiles [] (by simp) none entries

/-! ## Sorted listings -/

theorem strLt_asymm : ∀ a b : Str, strLt a b = true → strLt b a = false := by
  intro a
  induction a with
  | nil =>
    intro b h
    cases b with
    | nil => rfl
    | cons y ys => rfl
  | cons x xs ih =>
    intro b h
    cases b with
    | nil => simp [strLt] at h
    | cons y ys =>
      unfold strLt at h ⊢
      by_cases h1 : x < y
      · have h2 : ¬ y < x := by omega
        simp [h2, h1]
      · by_cases h2 : y < x
        · simp [h1, h2] at h
        · simp only [h1, h2, if_false] at h ⊢
          exact ih ys h

theorem insertEntry_of_headNotBefore (name : Str) (node : DirTree) (rest : DirEntries)
    (h : headNotBefore name rest = true) :
    insertEntry name node rest = DirEntries.cons name node rest := by
  cases rest with
  | nil => rfl
  | cons name2 node2 rest2 =>
    have h2 : strLt name2 name = false := by simpa [headNotBefore] using h
    simp [insertEntry, h2]

mutual
/-- Sorting leaves a sorted tree as it is. -/
theorem sortTree_of_sorted : ∀ (t : DirTree), t.sorted = true → sortTree t = t
  | DirTree.file perm data => by
    intro _
    rfl
  | DirTree.dir perm entries => by
    intro h
    unfold DirTree.sorted at h
    unfold sortTree
    rw [sortEntries_of_sorted entries h]
/-- Sorting leaves a sorted listing as it is. -/
theorem sortEntries_of_sorted : ∀ (es : DirEntries), es.sorted = true → sortEntries es = es
  | DirEntries.nil => by
    intro _
    rfl
  | DirEntries.cons name node rest => by
    intro h
    unfold DirEntries.sorted at h
    simp only [Bool.and_eq_true] at h
    obtain ⟨⟨h1, h2⟩, h3⟩ := h
    unfold sortEntries
    rw [sortTree_of_sorted node h1, sortEntries_of_sorted rest h2,
      insertEntry_of_headNotBefore name node rest h3]
end

theorem insertEntry_sorted (name : Str) (node : DirTree) (hn : node.sorted = true) :
    ∀ (es : DirEntries), es.sorted = true → (insertEntry name node es).sorted = true
  | DirEntries.nil => by
    intro _
    simp [insertEntry, DirEntries.sorted, hn, headNotBefore]
  | DirEntries.cons name2 node2 rest => by
    intro h
    have ih := insertEntry_sorted name node hn rest
    unfold DirEntries.sorted at h
    simp only [Bool.and_eq_true] at h
    obtain ⟨⟨h1, h2⟩, h3⟩ := h
    unfold insertEntry
    by_cases hlt : strLt name2 name = true
    · simp only [hlt, if_true]
      unfold DirEntries.sorted
      simp only [Bool.and_eq_true]
      refine ⟨⟨h1, ih h2⟩, ?_⟩
      cases rest with
      | nil => simp [insertEntry, headNotBefore, strLt_asymm _ _ hlt]
      | cons name3 node3 rest3 =>
        unfold insertEntry
        by_cases hlt3 : strLt name3 name = true
        · simpa [hlt3, headNotBefore] using h3
        · simp [hlt3, headNotBefore, strLt_asymm _ _ hlt]
    · have hf : strLt name2 name = false := by simpa using hlt
      simp only [hf, Bool.false_eq_true, if_false]
      unfold DirEntries.sorted
      simp only [Bool.and_eq_true]
      refine ⟨⟨hn, ?_⟩, by simp [headNotBefore, hf]⟩
      unfold DirEntries.sorted
      simp only [Bool.and_eq_true]
      exact ⟨⟨h1, h2⟩, h3⟩

mutual
/-- The sorted tree is sorted. -/
theorem sortTree_sorted : ∀ (t : DirTree), (sortTree t).sorted = true
  | DirTree.file perm data => rfl
  | DirTree.dir perm entries => by
    unfold sortTree DirTree.sorted
    exact sortEntries_sorted entries
/-- The sorted listing is sorted. -/
theorem sortEntries_sorted : ∀ (es : DirEntries), (sortEntries es).sorted = true
  | DirEntries.nil => rfl
  | DirEntries.cons name node rest => by
    unfold sortEntries
    exact insertEntry_sorted name _ (sortTree_sorted node) _ (sortEntries_sorted rest)
end

/-- The walk over the tree as `filepath.Walk` reads it, every directory in the
order of its sorted names, yields the kept entries. -/
theorem walkSource_sortTree (includeFiles excludeFiles : List Str) (source : DirTree) :
    walkSource includeFiles excludeFiles (sortTree source) =
      keptEntries includeFiles excludeFiles source :=
  walkSource_eq_filter includeFiles excludeFiles (sortTree source)

/-! # The properties of the specification -/

/-- C1, the code at the failing input.  Under the destination root `..` the
entry `../a` passes the path check of `extractTar` and `extractZip`, although
its target `../../a` is not below the cleaned root `..`: an accepted entry
can resolve outside the root.  In the working directory `/home/user` the
root is `/home` and the target is `/a`. -/
theorem path_check_accepts_escape_under_dotdot :
    pathAccepted (str "..") (str "../a") = true ∧
    Clean (str "..") = str ".." ∧
    entryTarget (str "..") (str "../a") = str "../../a" ∧
    descends (Clean (str "..")) (entryTarget (str "..") (str "../a")) = false ∧
    resolve [str "home", str "user"] (Clean (str "..")) = [str "home"] ∧
    resolve [str "home", str "user"] (entryTarget (str "..") (str "../a")) = [str "a"] ∧
    locatedUnder [str "home", str "user"] (Clean (str ".."))
      (entryTarget (str "..") (str "../a")) = false := by
  decide

/-- C2, the code at the failing input.  Extracting into the root `..` an
archive whose only entry is `../a`, which escapes the root, returns no error
and writes the file `../../a`, for a tar archive and for a zip archive. -/
theorem extraction_writes_escaping_entry_under_dotdot :
    descends (Clean (str "..")) (entryTarget (str "..") (str "../a")) = false ∧
    ExtractArchive memOS [] (tarArchive [regEntry (str "../a")]) (str "..") FormatTarGZ =
      ([(str "../../a", Node.file 0o644 (str "x"))], none) ∧
    ExtractArchive memOS [] (zipArchive [zipFileEntry (str "../a")]) (str "..") FormatZip =
      ([(str "../../a", Node.file 0o644 (str "x"))], none) := by
  decide

/-- C3, the code at the failing input.  The round trip of a tree with the
file `run.sh` of mode `0755` through the zip tag succeeds but leaves the file
with mode `0666`: `addFileToZip` hands the file to `zip.Writer.Create`, which
records no mode, where `addFileToTar` records the mode `0755` in the header
it writes. -/
theorem zip_round_trip_loses_mode
    (unclosed : Codec → List TarEntry → Except Error TarStream) :
    (roundTrip unclosed sampleMarshal scriptTree FormatZip [] [] sampleMetadata
      (str "/out")).2 = none ∧
    (roundTrip unclosed sampleMarshal scriptTree FormatZip [] [] sampleMetadata
      (str "/out")).1.get (str "/out/run.sh") = some (Node.file 0o666 (str "#!")) ∧
    (addFileToZip (DirTree.file 0o755 (str "#!")) (str "run.sh")).Mode = 0o666 ∧
    (addFileToTar (DirTree.file 0o755 (str "#!")) (str "run.sh")).Mode = 0o755 := by
  refine ⟨?_, ?_, ?_, ?_⟩
  · rfl
  · rfl
  · decide
  · decide

/-- C4.  If the lower-cased file name ends with one of the five known
suffixes, `DetectFormat` returns the tag of that suffix whatever the file
system holds, no other known suffix ends the name, and the tag is the one of
the longest-matching-suffix rule; if the lower-cased name ends with none of
the five nor with `.criage`, `DetectFormat` returns `tar.zst`. -/
theorem DetectFormat_by_extension (mapLower : Str → Str) (files : Str → Option Str)
    (filename : Str) :
    (∀ p ∈ knownSuffixes, HasSuffix (ToLower mapLower filename) p.1 = true →
      DetectFormat mapLower files filename = p.2 ∧
      longestSuffix (ToLower mapLower filename) = some p ∧
      ∀ q ∈ knownSuffixes, HasSuffix (ToLower mapLower filename) q.1 = true → q = p) ∧
    ((∀ p ∈ knownSuffixes, HasSuffix (ToLower mapLower filename) p.1 = false) →
      HasSuffix (ToLower mapLower filename) (str ".criage") = false →
      DetectFormat mapLower files filename = FormatTarZst) := by
  obtain ⟨e12, e13, e14, e15, e23, e24, e25, e34, e35, e45⟩ :=
    detect_by_cases (ToLower mapLower filename)
  simp only [knownSuffixes, List.mem_cons, List.mem_singleton, List.not_mem_nil, or_false,
    forall_eq_or_imp, forall_eq, longestSuffix, DetectFormat, List.filter_cons, List.filter_nil]
  generalize HasSuffix (ToLower mapLower filename) (str ".tar.zst") = b1 at *
  generalize HasSuffix (ToLower mapLower filename) (str ".tar.lz4") = b2 at *
  generalize HasSuffix (ToLower mapLower filename) (str ".tar.xz") = b3 at *
  generalize HasSuffix (ToLower mapLower filename) (str ".tar.gz") = b4 at *
  generalize HasSuffix (ToLower mapLower filename) (str ".zip") = b5 at *
  cases b1 <;> cases b2 <;> cases b3 <;> cases b4 <;> cases b5 <;>
    simp_all +decide

/-- C4, witness: the name `Pkg.TAR.GZ`, whose lower-cased form ends with
`.tar.gz`, is detected as `tar.gz` on a file system without any file. -/
theorem DetectFormat_by_extension_witness :
    DetectFormat id (fun _ => none) (str "Pkg.TAR.GZ") = FormatTarGZ ∧
    longestSuffix (ToLower id (str "Pkg.TAR.GZ")) = some (str ".tar.gz", FormatTarGZ) :=
  ⟨((DetectFormat_by_extension id (fun _ => none) (str "Pkg.TAR.GZ")).1
      (str ".tar.gz", FormatTarGZ) (by decide) (by decide)).1,
   ((DetectFormat_by_extension id (fun _ => none) (str "Pkg.TAR.GZ")).1
      (str ".tar.gz", FormatTarGZ) (by decide) (by decide)).2.1⟩

/-- C5, the code at the failing inputs.  For the name `Pkg.CRIAGE` of a file
that begins with the gzip magic, `DetectFormat` returns `tar.zst`: it opens
the lower-cased name `pkg.criage`, which does not exist, while the file the
caller named sniffs as `tar.gz`.  For a file `x.criage` that begins with
`50 4B 03 00`, which is neither ZIP magic, it returns `zip`. -/
theorem DetectFormat_criage_divergence :
    DetectFormat id gzipNamedUpper (str "Pkg.CRIAGE") = FormatTarZst ∧
    detectCriageFormat gzipNamedUpper (str "Pkg.CRIAGE") = FormatTarGZ ∧
    DetectFormat id almostZip (str "x.criage") = FormatZip := by
  decide

/-- C6.  The filter `shouldExclude` is true exactly when some exclude pattern
matches the path or the include list is non-empty and none of its patterns
matches the path; so an exclude match wins over any include match, and with
an empty include list a path that no exclude pattern matches is kept. -/
theorem shouldExclude_iff (path : Str) (includeFiles excludeFiles : List Str) :
    (shouldExclude path includeFiles excludeFiles = true ↔
      (∃ pattern ∈ excludeFiles, globMatches pattern path = true) ∨
      (includeFiles ≠ [] ∧ ∀ pattern ∈ includeFiles, globMatches pattern path = false)) ∧
    ((∃ pattern ∈ excludeFiles, globMatches pattern path = true) →
      shouldExclude path includeFiles excludeFiles = true) ∧
    ((∀ pattern ∈ excludeFiles, globMatches pattern path = false) →
      shouldExclude path [] excludeFiles = false) := by
  refine ⟨shouldExclude_eq_true path includeFiles excludeFiles, ?_, ?_⟩
  · intro h
    exact (shouldExclude_eq_true path includeFiles excludeFiles).2 (Or.inl h)
  · intro h
    cases hs : shouldExclude path [] excludeFiles with
    | false => rfl
    | true =>
      rcases (shouldExclude_eq_true path [] excludeFiles).1 hs with ⟨p, hp, hm⟩ | ⟨hne, _⟩
      · rw [h p hp] at hm; exact absurd hm (by decide)
      · exact absurd rfl hne

/-- C6, witness: the path `b.tmp` is excluded by the exclude pattern `*.tmp`
although the include pattern `*` matches it. -/
theorem shouldExclude_iff_witness :
    shouldExclude (str "b.tmp") [str "*"] [str "*.tmp"] = true :=
  (shouldExclude_iff (str "b.tmp") [str "*"] [str "*.tmp"]).2.1
    ⟨str "*.tmp", by decide, by decide⟩

/-- C7, counterexample.  With the exclude list `*.tmp` the path `a/b.tmp` is
kept, and with the include list `*.go` the path `a/b.go` is excluded: the
star of a glob does not match a separator. -/
theorem filter_examples_fail :
    shouldExclude (str "a/b.tmp") [] [str "*.tmp"] = false ∧
    shouldExclude (str "a/b.go") [str "*.go"] [] = true := by
  decide

/-- C7, amended.  With the exclude list `*.tmp` and no include pattern, the
filter keeps `a/b.tmp` and `a/b.txt` and excludes `b.tmp`; with the include
list `*.go` and no exclude pattern, it excludes `a/b.txt` and `a/b.go` and
keeps `b.go`.  The glob is matched against the whole relative path and its
star does not match a separator. -/
theorem filter_examples_amended :
    shouldExclude (str "a/b.tmp") [] [str "*.tmp"] = false ∧
    shouldExclude (str "a/b.txt") [] [str "*.tmp"] = false ∧
    shouldExclude (str "b.tmp") [] [str "*.tmp"] = true ∧
    shouldExclude (str "a/b.txt") [str "*.go"] [] = true ∧
    shouldExclude (str "a/b.go") [str "*.go"] [] = true ∧
    shouldExclude (str "b.go") [str "*.go"] [] = false ∧
    Match (str "*.tmp") (str "a/b.tmp") = (false, none) ∧
    Match (str "*.go") (str "a/b.go") = (false, none) := by
  decide

/-- C8, counterexample.  For a source tree with a file of its own named
`.criage-metadata.json`, no filter and the zip tag, two files of that name
are written to the zip writer, and the output file reads back with two files
of that name. -/
theorem reserved_name_collides :
    (createArchive collidingTree FormatZip [] [] (str "{}")).names =
      [metadataName, metadataName] ∧
    (createArchive collidingTree FormatZip [] [] (str "{}")).readZip.toOption.map
      (fun files => files.map (fun f => f.Name)) = some [metadataName, metadataName] := by
  decide

/-- C8, amended.  Whatever the source tree, the filters and the format tag,
the entries that `CreateArchiveWithMetadata` hands to the tar or zip writer
start with the entry `.criage-metadata.json` holding the serialized
metadata; when the source tree has no entry of that name at its root, no
other entry written has that name; and for the zip tag the output file reads
back with the files written, in their order. -/
theorem metadata_entry_first (marshal : PackageMetadata → Except Error Str)
    (source : DirTree) (format : ArchiveFormat) (includeFiles excludeFiles : List Str)
    (metadata : PackageMetadata) (container : Container)
    (hc : CreateArchiveWithMetadata marshal source format includeFiles excludeFiles metadata =
      .ok container) :
    ∃ metadataData, marshal metadata = .ok metadataData ∧
      container.names.head? = some metadataName ∧
      container.contents.head? = some (.ok metadataData) ∧
      (metadataName ∉ rootNames source → metadataName ∉ container.names.tail) ∧
      (format = FormatZip →
        ∃ files, container.readZip = .ok files ∧
          files.map (fun f => f.Name) = container.names ∧
          files.map (fun f => f.Open) = container.contents) := by
  unfold CreateArchiveWithMetadata at hc
  cases hm : marshal metadata with
  | error e => rw [hm] at hc; cases hc
  | ok metadataData =>
    rw [hm] at hc
    have hcont : container =
        createArchive source format includeFiles excludeFiles metadataData := by
      injection hc with h; exact h.symm
    subst hcont
    refine ⟨metadataData, rfl, ?_, ?_, ?_, ?_⟩
    · unfold createArchive
      split <;> rfl
    · unfold createArchive
      split <;> rfl
    · intro hno hmem
      exact hno (createArchive_tail_names source format includeFiles excludeFiles
        metadataData hmem)
    · intro hz
      unfold createArchive
      rw [if_pos hz]
      exact ⟨_, rfl, rfl, rfl⟩

/-- C8, witness: the tree with the file `run.sh`, packed as zip. -/
theorem metadata_entry_first_witness :
    ∃ metadataData, sampleMarshal sampleMetadata = .ok metadataData ∧
      (createArchive scriptTree FormatZip [] [] (str "{}")).names.head? = some metadataName ∧
      (createArchive scriptTree FormatZip [] [] (str "{}")).contents.head? =
        some (.ok metadataData) ∧
      (metadataName ∉ rootNames scriptTree →
        metadataName ∉ (createArchive scriptTree FormatZip [] [] (str "{}")).names.tail) ∧
      (FormatZip = FormatZip →
        ∃ files, (createArchive scriptTree FormatZip [] [] (str "{}")).readZip = .ok files ∧
          files.map (fun f => f.Name) =
            (createArchive scriptTree FormatZip [] [] (str "{}")).names ∧
          files.map (fun f => f.Open) =
            (createArchive scriptTree FormatZip [] [] (str "{}")).contents) :=
  metadata_entry_first sampleMarshal scriptTree FormatZip [] [] sampleMetadata
    (createArchive scriptTree FormatZip [] [] (str "{}")) rfl

/-- C9, the code at the failing input.  For the tag `tar.zst`,
`createTarArchive` writes the tar stream to the file itself and `extractTar`
reads the file itself, with no compressor in between; the other three tar
tags go through their own compressor. -/
theorem zstd_tag_passes_through :
    createWriter FormatTarZst = Codec.file ∧
    extractReader FormatTarZst = Codec.file ∧
    (createWriter FormatTarLZ4 = Codec.lz4 ∧ extractReader FormatTarLZ4 = Codec.lz4) ∧
    (createWriter FormatTarXZ = Codec.xz ∧ extractReader FormatTarXZ = Codec.xz) ∧
    (createWriter FormatTarGZ = Codec.gzip ∧ extractReader FormatTarGZ = Codec.gzip) := by
  decide

/-- C10, counterexample.  The entry `/etc/passwd` extracted into `/tmp/out`
passes the path check and is written, as `/tmp/out/etc/passwd`, with no
error. -/
theorem absolute_name_accepted :
    pathAccepted (str "/tmp/out") (str "/etc/passwd") = true ∧
    (ExtractArchive memOS [] (tarArchive [regEntry (str "/etc/passwd")]) (str "/tmp/out")
      FormatTarGZ).2 = none ∧
    (ExtractArchive memOS [] (tarArchive [regEntry (str "/etc/passwd")]) (str "/tmp/out")
      FormatTarGZ).1.get (str "/tmp/out/etc/passwd") = some (Node.file 0o644 (str "x")) := by
  decide

/-- C10, amended.  For every destination root, an entry whose raw path begins
with the separator is accepted or rejected by the path check exactly as the
same path without that separator, and for a non-empty root its target is the
same: an absolute raw path is not rejected as such, it is taken relative to
the destination root. -/
theorem absolute_name_rerooted (destDir name : Str) :
    pathAccepted destDir (Separator :: name) = pathAccepted destDir name ∧
    (destDir ≠ [] → entryTarget destDir (Separator :: name) = entryTarget destDir name) := by
  cases destDir with
  | nil => exact ⟨by rw [pathAccepted_nil, pathAccepted_nil], fun h => absurd rfl h⟩
  | cons c cs =>
    have ht : entryTarget (c :: cs) (Separator :: name) = entryTarget (c :: cs) name := by
      rw [entryTarget_cons, entryTarget_cons]
      exact Clean_double_sep (c :: cs) name (by simp)
    exact ⟨by unfold pathAccepted; rw [ht], fun _ => ht⟩

/-- C10, witness: under the root `out` the entries `/a/b` and `a/b` have the
same target, `out/a/b`. -/
theorem absolute_name_rerooted_witness :
    entryTarget (str "out") (Separator :: str "a/b") = entryTarget (str "out") (str "a/b") ∧
    entryTarget (str "out") (str "a/b") = str "out/a/b" :=
  ⟨(absolute_name_rerooted (str "out") (str "a/b")).2 (by decide), by decide⟩

/-- C11, counterexample.  Under the root `/tmp/out` the entries `.`, `./` and
`a/..` have the cleaned root itself as target and fail the path check;
extracting the directory entry `.` followed by the file `a` returns the
invalid-path error for `.` and does not write `a`. -/
theorem root_entry_is_rejected :
    entryTarget (str "/tmp/out") (str ".") = Clean (str "/tmp/out") ∧
    pathAccepted (str "/tmp/out") (str ".") = false ∧
    pathAccepted (str "/tmp/out") (str "./") = false ∧
    pathAccepted (str "/tmp/out") (str "a/..") = false ∧
    (ExtractArchive memOS [] (tarArchive [dirEntry (str "."), regEntry (str "a")])
      (str "/tmp/out") FormatTarGZ).2 = some (Error.invalidPath (str ".")) ∧
    (ExtractArchive memOS [] (tarArchive [dirEntry (str "."), regEntry (str "a")])
      (str "/tmp/out") FormatTarGZ).1.get (str "/tmp/out/a") = none := by
  decide

/-- C11, amended.  For every destination root, an entry whose target is the
cleaned destination root itself fails the path check of `extractTar` and of
`extractZip`: the loop returns the invalid-path error at that entry, leaves
the file system as it is, and does not go on to the following entries. -/
theorem root_entry_rejected {σ : Type} (os : OS σ) (destDir name : Str)
    (h : entryTarget destDir name = Clean destDir) :
    pathAccepted destDir name = false ∧
    (∀ (trailer : Option Error) (fs : σ) (header : TarEntry) (rest : List TarEntry),
      header.Name = name →
      extractTarLoop os destDir trailer fs (header :: rest) =
        (fs, some (Error.invalidPath name))) ∧
    (∀ (fs : σ) (file : ZipEntry) (rest : List ZipEntry),
      file.Name = name →
      extractZipLoop os destDir fs (file :: rest) = (fs, some (Error.invalidPath name))) := by
  have hrej : pathAccepted destDir name = false := pathAccepted_at_root destDir name h
  have hp : HasPrefix (Join [destDir, name]) (Clean destDir ++ [Separator]) = false := hrej
  refine ⟨hrej, ?_, ?_⟩
  · intro trailer fs header rest hn
    subst hn
    simp [extractTarLoop, hp]
  · intro fs file rest hn
    subst hn
    simp [extractZipLoop, hp]

/-- C11, witness: the entry `a/..` under the root `/tmp/out`. -/
theorem root_entry_rejected_witness :
    pathAccepted (str "/tmp/out") (str "a/..") = false ∧
    (∀ (trailer : Option Error) (fs : MemFS) (header : TarEntry) (rest : List TarEntry),
      header.Name = str "a/.." →
      extractTarLoop memOS (str "/tmp/out") trailer fs (header :: rest) =
        (fs, some (Error.invalidPath (str "a/..")))) ∧
    (∀ (fs : MemFS) (file : ZipEntry) (rest : List ZipEntry),
      file.Name = str "a/.." →
      extractZipLoop memOS (str "/tmp/out") fs (file :: rest) =
        (fs, some (Error.invalidPath (str "a/..")))) :=
  root_entry_rejected memOS (str "/tmp/out") (str "a/..") (by decide)

/-- C12, counterexample.  With the tag `rar`, `ExtractArchive` returns no
error and writes the entry of a bare tar stream, and
`CreateArchiveWithMetadata` returns a container, a tar stream written to the
file itself. -/
theorem unsupported_format_accepted :
    ExtractArchive memOS [] (tarArchive [regEntry (str "a")]) (str "/out") FormatRar =
      ([(str "/out", Node.dir 0o755), (str "/out/a", Node.file 0o644 (str "x"))], none) ∧
    (CreateArchiveWithMetadata sampleMarshal scriptTree FormatRar [] []
      sampleMetadata).toOption.map Container.names = some [metadataName, str "run.sh"] ∧
    createWriter FormatRar = Codec.file := by
  decide

/-- C12, amended.  For every format tag that is not one of the five supported
tags, neither `ExtractArchive` nor `CreateArchiveWithMetadata` fails on
account of the tag.  The tag takes the tar path and the branch `default` of
the codec switch: extraction creates the destination root and extracts the
tar stream read from the file itself, and creation hands the metadata entry
and the entries of the walk to a tar writer on the file itself. -/
theorem unsupported_format_as_bare_tar {σ : Type} (os : OS σ) (fs : σ) (archive : Archive)
    (destDir : Str) (marshal : PackageMetadata → Except Error Str) (source : DirTree)
    (includeFiles excludeFiles : List Str) (metadata : PackageMetadata)
    (format : ArchiveFormat)
    (h : format ≠ FormatTarZst ∧ format ≠ FormatTarLZ4 ∧ format ≠ FormatTarXZ ∧
      format ≠ FormatTarGZ ∧ format ≠ FormatZip) :
    extractReader format = Codec.file ∧
    createWriter format = Codec.file ∧
    ExtractArchive os fs archive destDir format =
      (match os.MkdirAll fs destDir 0o755 with
        | (fs1, some e) => (fs1, some (Error.destination e))
        | (fs1, none) =>
          match archive.tar Codec.file with
          | .error e => (fs1, some e)
          | .ok stream => extractTarLoop os destDir stream.trailer fs1 stream.entries) ∧
    CreateArchiveWithMetadata marshal source format includeFiles excludeFiles metadata =
      (match marshal metadata with
        | .error e => .error e
        | .ok metadataData =>
          .ok (Container.tar Codec.file
            (addFileToTar (metadataNode metadataData) metadataName ::
              (walkSource includeFiles excludeFiles source).map
                (fun p => addFileToTar p.2 p.1)))) := by
  obtain ⟨h1, h2, h3, h4, h5⟩ := h
  have hr : extractReader format = Codec.file := by
    simp [extractReader, h1, h2, h3, h4]
  have hw : createWriter format = Codec.file := by
    simp [createWriter, h1, h2, h3, h4]
  refine ⟨hr, hw, ?_, ?_⟩
  · unfold ExtractArchive
    simp only [h5, if_false, extractTar, hr]
  · unfold CreateArchiveWithMetadata createArchive
    simp only [h5, if_false, createTarArchive, hw]

/-- C12, witness: the tag `rar`, on an archive that holds the file `a` and on
the tree with the file `run.sh`. -/
theorem unsupported_format_as_bare_tar_witness :
    extractReader FormatRar = Codec.file ∧
    createWriter FormatRar = Codec.file ∧
    ExtractArchive memOS [] (tarArchive [regEntry (str "a")]) (str "/out") FormatRar =
      ([(str "/out", Node.dir 0o755), (str "/out/a", Node.file 0o644 (str "x"))], none) ∧
    (CreateArchiveWithMetadata sampleMarshal scriptTree FormatRar [] []
      sampleMetadata).toOption.map Container.names = some [metadataName, str "run.sh"] :=
  have hw := unsupported_format_as_bare_tar memOS [] (tarArchive [regEntry (str "a")])
    (str "/out") sampleMarshal scriptTree [] [] sampleMetadata FormatRar (by decide)
  ⟨hw.1, hw.2.1, hw.2.2.1.trans rfl, by rw [hw.2.2.2]; rfl⟩

/-- C13, counterexample.  With the malformed exclude pattern `[`, or with the
malformed include pattern `[`, `CreateArchiveWithMetadata` returns a
container and no error: the exclude pattern excludes nothing, the include
pattern includes nothing. -/
theorem malformed_pattern_no_error :
    Match (str "[") (str "run.sh") = (false, some Error.badPattern) ∧
    (CreateArchiveWithMetadata sampleMarshal scriptTree FormatTarGZ [] [str "["]
      sampleMetadata).toOption.map Container.names = some [metadataName, str "run.sh"] ∧
    (CreateArchiveWithMetadata sampleMarshal scriptTree FormatTarGZ [str "["] []
      sampleMetadata).toOption.map Container.names = some [metadataName] := by
  decide

/-- C13, amended.  A malformed glob pattern never makes
`CreateArchiveWithMetadata` fail: whatever the pattern lists, creation
returns the container when the metadata serializes.  The error of
`filepath.Match` is dropped by `shouldExclude` and the pattern counts as one
that does not match: the malformed pattern `[` in the exclude list changes
nothing, and as the only include pattern it excludes every path. -/
theorem malformed_pattern_dropped (marshal : PackageMetadata → Except Error Str)
    (source : DirTree) (format : ArchiveFormat) (includeFiles excludeFiles : List Str)
    (metadata : PackageMetadata) (metadataData : Str)
    (hm : marshal metadata = .ok metadataData) :
    CreateArchiveWithMetadata marshal source format includeFiles excludeFiles metadata =
      .ok (createArchive source format includeFiles excludeFiles metadataData) ∧
    (∀ pattern path : Str, (Match pattern path).2 ≠ none → globMatches pattern path = false) ∧
    (∀ path : Str, Match (str "[") path = (false, some Error.badPattern)) ∧
    (∀ (path : Str) (inc exc : List Str),
      shouldExclude path inc (str "[" :: exc) = shouldExclude path inc exc) ∧
    (∀ (path : Str) (exc : List Str), shouldExclude path [str "["] exc = true) := by
  have hb : ∀ path : Str, globMatches (str "[") path = false := fun path => rfl
  refine ⟨?_, globMatches_of_error, Match_open_bracket, ?_, ?_⟩
  · unfold CreateArchiveWithMetadata
    rw [hm]
  · intro path inc exc
    show (if globMatches (str "[") path then true else shouldExclude path inc exc) = _
    rw [hb]; rfl
  · intro path exc
    induction exc with
    | nil => simp [shouldExclude, includeLoop, hb]
    | cons p rest ih =>
      unfold shouldExclude
      split
      · rfl
      · exact ih

/-- C13, witness: the tree with the file `run.sh` and the exclude list `[`. -/
theorem malformed_pattern_dropped_witness :
    CreateArchiveWithMetadata sampleMarshal scriptTree FormatTarGZ [] [str "["]
        sampleMetadata =
      .ok (createArchive scriptTree FormatTarGZ [] [str "["] (str "{}")) :=
  (malformed_pattern_dropped sampleMarshal scriptTree FormatTarGZ [] [str "["]
    sampleMetadata (str "{}") rfl).1

/-- C14.  After extraction into the scratch directory has succeeded: when
`.criage-metadata.json` is absent and `criage.yaml` is present,
`ExtractMetadataFromArchive` returns, without error, the record with creator
`criage`, the version of the manager and no package or build manifest; when
both are absent it returns the error `no metadata found in archive` and no
record; when `.criage-metadata.json` is present, it returns what reading and
parsing that file gives, whether `criage.yaml` is present or not. -/
theorem metadata_lookup_cases {σ : Type} (os : MetaOS σ)
    (unmarshal : Str → Except Error PackageMetadata) (version : Str) (fs fs1 fs2 : σ)
    (archive : Archive) (format : ArchiveFormat) (tempDir : Str)
    (htemp : os.MkdirTemp fs = (fs1, .ok tempDir))
    (hext : extractMetadataOnly os.toOS fs1 archive tempDir format = (fs2, none)) :
    (os.StatNotExist fs2 (Join [tempDir, metadataName]) = true →
      os.StatNotExist fs2 (Join [tempDir, manifestName]) = false →
      (ExtractMetadataFromArchive os unmarshal version fs archive format).2 =
        .ok { PackageManifest := none, BuildManifest := none, CompressionType := [],
              CreatedAt := 0, CreatedBy := str "criage", Version := version }) ∧
    (os.StatNotExist fs2 (Join [tempDir, metadataName]) = true →
      os.StatNotExist fs2 (Join [tempDir, manifestName]) = true →
      (ExtractMetadataFromArchive os unmarshal version fs archive format).2 =
        .error Error.noMetadata) ∧
    (os.StatNotExist fs2 (Join [tempDir, metadataName]) = false →
      (ExtractMetadataFromArchive os unmarshal version fs archive format).2 =
        match os.ReadFile fs2 (Join [tempDir, metadataName]) with
        | .error e => .error e
        | .ok data => unmarshal data) := by
  have hres : (ExtractMetadataFromArchive os unmarshal version fs archive format).2 =
      lookupMetadata os unmarshal version fs2 tempDir := by
    simp only [ExtractMetadataFromArchive, htemp, hext]
  rw [hres]
  refine ⟨?_, ?_, ?_⟩
  · intro h1 h2
    simp [lookupMetadata, h1, h2, createMetadataFromManifest]
  · intro h1 h2
    simp [lookupMetadata, h1, h2]
  · intro h1
    simp [lookupMetadata, h1]

/-- C14, witness: an archive that holds `criage.yaml` and no metadata entry,
read by a manager of version `1.2.3` on the in-memory file system. -/
theorem metadata_lookup_cases_witness :
    (ExtractMetadataFromArchive memMetaOS sampleUnmarshal (str "1.2.3") []
      (tarArchive [regEntry manifestName]) FormatTarGZ).2 =
        .ok { PackageManifest := none, BuildManifest := none, CompressionType := [],
              CreatedAt := 0, CreatedBy := str "criage", Version := str "1.2.3" } :=
  (metadata_lookup_cases memMetaOS sampleUnmarshal (str "1.2.3") [] _ _
    (tarArchive [regEntry manifestName]) FormatTarGZ _ rfl rfl).1 (by decide) (by decide)

/-- C15.  For every source tree whose directory listings are in the order of
their names (as `filepath.Walk` reads them), every pattern lists and every
format tag, the walk hands to the archive writer exactly the entries of the
tree other than the root for which `shouldExclude` is false on the relative
path of the entry and on the relative path of every ancestor directory below
the root, in depth-first lexical order; the tar and the zip container hold
the metadata entry followed by exactly these entries. -/
theorem walk_writes_kept_entries (includeFiles excludeFiles : List Str) (source : DirTree)
    (format : ArchiveFormat) (metadataData : Str) (h : source.sorted = true) :
    walkSource includeFiles excludeFiles source =
      keptEntries includeFiles excludeFiles source ∧
    createTarArchive source format includeFiles excludeFiles metadataData =
      Container.tar (createWriter format)
        (addFileToTar (metadataNode metadataData) metadataName ::
          (keptEntries includeFiles excludeFiles source).map
            (fun p => addFileToTar p.2 p.1)) ∧
    createZipArchive source includeFiles excludeFiles metadataData =
      Container.zip
        (addFileToZip (metadataNode metadataData) metadataName ::
          (keptEntries includeFiles excludeFiles source).map
            (fun p => addFileToZip p.2 p.1)) := by
  have hw : walkSource includeFiles excludeFiles source =
      keptEntries includeFiles excludeFiles source := by
    have := walkSource_eq_filter includeFiles excludeFiles source
    rw [this]
    unfold keptEntries
    rw [sortTree_of_sorted source h]
  refine ⟨hw, ?_, ?_⟩
  · unfold createTarArchive
    rw [hw]
  · unfold createZipArchive
    rw [hw]

/-- C15, witness: the tree with the directory `a` (files `x.go`, `y.tmp`) and
the files `b.go`, `c.tmp`, with the exclude list `b.go`, `a/*.tmp`. -/
theorem walk_writes_kept_entries_witness :
    walkTree.sorted = true ∧
    walkSource [] [str "b.go", str "a/*.tmp"] walkTree =
      keptEntries [] [str "b.go", str "a/*.tmp"] walkTree :=
  ⟨by decide,
    (walk_writes_kept_entries [] [str "b.go", str "a/*.tmp"] walkTree FormatTarGZ (str "{}")
      (by decide)).1⟩

end Criage
